import Mathlib

/-!
Verification of the lighnote-rom-maker chess puzzle pipeline.
The development shallowly embeds the Rust sources `src/chess/src/lib.rs` and
`src/chess/src/main.rs`.  Rust `String`/`&str` values are modelled as
`List Char` (the inputs of interest are ASCII, where Rust's byte-indexed
string operations coincide with character-indexed ones), machine integers as
`Nat` with explicit truncation where a cast occurs, fallible operations as
`Except`, and operations that can panic (an `unwrap` of `None`, an arithmetic
underflow, or an out-of-bounds `replace_range`) as `Option`, with `none`
standing for the panic.  The file-system sink is modelled as an association
list from file names to contents.
-/

namespace ChessRom

/-- Numeric value of an ASCII digit character, as in Rust's `to_digit(10)`. -/
def digitVal (c : Char) : Nat := c.toNat - 48

/-- Expansion of one character of a compact FEN board field: digits 1..8
become that many '1' filler characters, rank separators vanish, anything else
passes through (`expand_fen` in src/chess/src/lib.rs, match arm by match arm). -/
def expandChar (c : Char) : List Char :=
  if '1' ≤ c ∧ c ≤ '8' then List.replicate (digitVal c) '1'
  else if c = '/' then [] else [c]

def expandCore (s : List Char) : List Char := s.flatMap expandChar

/-- `expand_fen`: expand a compact board and truncate to 64 characters. -/
def expand_fen (s : List Char) : List Char := (expandCore s).take 64

/-- The slash-insertion pass of `compress_fen`: a '/' is emitted before every
character whose index is a nonzero multiple of 8 (the `enumerate`/`flat_map`
in src/chess/src/lib.rs with the index made explicit). -/
def withSlashesAux : List Char → Nat → List Char
  | [], _ => []
  | c :: rest, i =>
      (if i % 8 = 0 ∧ i ≠ 0 then ['/', c] else [c]) ++ withSlashesAux rest (i + 1)

/-- Decimal rendering of a number, as Rust's `count.to_string()`. -/
def natStr (n : Nat) : List Char := (Nat.repr n).toList

/-- The run-length pass of `compress_fen`: consecutive '1' characters are
counted and the count is flushed as decimal text before any other character
and at the end of the input. -/
def compressCore : List Char → Nat → List Char
  | [], k => if 0 < k then natStr k else []
  | c :: rest, k =>
      if c = '1' then compressCore rest (k + 1)
      else (if 0 < k then natStr k else []) ++ c :: compressCore rest 0

/-- `compress_fen` from src/chess/src/lib.rs: insert slashes, then collapse
runs of '1'. -/
def compress_fen (s : List Char) : List Char := compressCore (withSlashesAux s 0) 0

/-- A character of an expanded board: the empty-square filler or a piece
letter. -/
def boardChar (c : Char) : Bool := c == '1' || c.isAlpha

/-- Characters that survive a compress/expand cycle unchanged: '1', or
anything that is neither a rank separator nor an expandable digit. -/
def tameChar (c : Char) : Prop := c = '1' ∨ (c ≠ '/' ∧ ¬('1' ≤ c ∧ c ≤ '8'))

instance (c : Char) : Decidable (tameChar c) := by unfold tameChar; infer_instance

/-- Bounded runs of '1', carrying the length of the run in progress: true iff
no maximal run of '1' characters (extending the initial run of length `k`)
ever exceeds 8. -/
def runsOK : List Char → Nat → Bool
  | [], _ => true
  | c :: rest, k =>
      if c = '1' then decide (k + 1 ≤ 8) && runsOK rest (k + 1) else runsOK rest 0

/-! Well-formedness of a compact board string, rank by rank: every character
is a run digit 1..8 or a piece letter, no two digits are adjacent (runs are
written maximally), and the rank describes exactly 8 squares. -/

def isDigit18 (c : Char) : Bool := decide ('1' ≤ c ∧ c ≤ '8')

def rankWidth : List Char → Nat
  | [] => 0
  | c :: rest => (if isDigit18 c then digitVal c else 1) + rankWidth rest

def rankNoAdj : List Char → Bool
  | [] => true
  | [_] => true
  | a :: b :: rest => !(isDigit18 a && isDigit18 b) && rankNoAdj (b :: rest)

def rankOK (r : List Char) : Bool :=
  r.all (fun c => isDigit18 c || c.isAlpha) && rankNoAdj r && (rankWidth r == 8)

/-- Join a list of ranks with '/' separators, as Rust's `Vec::join("/")`. -/
def joinRanks : List (List Char) → List Char
  | [] => []
  | [r] => r
  | r :: s :: rest => r ++ '/' :: joinRanks (s :: rest)

/-! The move model of src/chess/src/lib.rs and src/chess/src/main.rs.
`none` results model a Rust panic (an `unwrap` of `None`, or a `u8`
subtraction that underflows — a panic in debug builds and a wrapped value in
release builds; either way not a returned error). -/

/-- `ChessMove` from src/chess/src/lib.rs; the Rust field `from` is a Lean
keyword so the index fields are spelled `fromSq`/`toSq`. -/
structure ChessMove where
  fromSq : Nat
  toSq : Nat
  promotion : Option Char
deriving DecidableEq

/-- `ChessError` from src/chess/src/lib.rs; the payloads of the i/o and csv
variants are irrelevant to the claims and dropped. -/
inductive ChessError where
  | invalidMove
  | invalidFen
  | invalidInput
  | ioError
  | csvError
deriving DecidableEq

deriving instance DecidableEq for Except

/-- Rust's `char::to_digit(10)`. -/
def toDigit10 (c : Char) : Option Nat :=
  if '0' ≤ c ∧ c ≤ '9' then some (digitVal c) else none

/-- `parse_move` (identical in src/chess/src/lib.rs and src/chess/src/main.rs):
only the length is validated; the square arithmetic is `c as u8 - b'a'` and
`8 - to_digit(c)` on `u8`, so a character below 'a' (after `u8` truncation),
a non-digit rank character, or a rank digit above 8 panics or wraps,
modelled as `none`. -/
def parse_move (m : List Char) : Option (Except ChessError ChessMove) :=
  match m with
  | c0 :: c1 :: c2 :: c3 :: rest =>
      match toDigit10 c1, toDigit10 c3 with
      | some d1, some d3 =>
          if c0.toNat % 256 < 97 ∨ c2.toNat % 256 < 97 ∨ 8 < d1 ∨ 8 < d3 then none
          else
            some (.ok ⟨(8 - d1) * 8 + (c0.toNat % 256 - 97),
                       (8 - d3) * 8 + (c2.toNat % 256 - 97), rest.head?⟩)
      | _, _ => none
  | _ => some (.error .invalidMove)

/-- Rust's `format!("{:02}", n)`: decimal text zero-padded to width 2. -/
def fmt2 (n : Nat) : List Char := if n < 10 then '0' :: natStr n else natStr n

/-- `move_to_index` from src/chess/src/lib.rs: recomputes flat indices from
the move text and formats them as two zero-padded decimals; when `reversed`
each index `i` becomes `|i - 63|` (computed in `i32`, truncated back to
`u8`). -/
def move_to_index (m : List Char) (reversed : Bool) : Option (Except ChessError (List Char)) :=
  match m with
  | c0 :: c1 :: c2 :: c3 :: _ =>
      match toDigit10 c1, toDigit10 c3 with
      | some d1, some d3 =>
          if c0.toNat % 256 < 97 ∨ c2.toNat % 256 < 97 ∨ 8 < d1 ∨ 8 < d3 then none
          else
            let f := (c0.toNat % 256 - 97) + (8 - d1) * 8
            let t := (c2.toNat % 256 - 97) + (8 - d3) * 8
            let f2 := if reversed then (Int.natAbs ((f : Int) - 63)) % 256 else f
            let t2 := if reversed then (Int.natAbs ((t : Int) - 63)) % 256 else t
            some (.ok (fmt2 f2 ++ ',' :: fmt2 t2))
      | _, _ => none
  | _ => some (.error .invalidMove)

/-- `apply_move` (identical in src/chess/src/lib.rs and src/chess/src/main.rs):
expand the board, read the source square (returning `InvalidMove` when it is
beyond the expanded board), compute the piece to place (a promotion letter is
cased to match the source piece), blank the source, write the destination
(`replace_range`, which panics — `none` — when the destination is beyond the
board), and compress. -/
def apply_move (fen : List Char) (m : ChessMove) : Option (Except ChessError (List Char × Char)) :=
  let e := expand_fen fen
  match e[m.fromSq]? with
  | none => some (.error .invalidMove)
  | some fc =>
      let tp := match m.promotion with
        | some p => if fc.isUpper then p.toUpper else p.toLower
        | none => fc
      let e1 := e.set m.fromSq '1'
      if m.toSq < e1.length then
        some (.ok (compress_fen (e1.set m.toSq tp), fc))
      else none

/-! The puzzle data model and filter of src/chess/src/main.rs. -/

/-- `Puzzle` from src/chess/src/main.rs. -/
structure Puzzle where
  id : List Char
  fen : List Char
  moves : List (List Char)
  rating : Nat
  themes : List (List Char)
  first_move : Char
deriving DecidableEq

/-- `Config` from src/chess/src/main.rs (fields in source order). -/
structure Config where
  verbose : Bool
  dry_run : Bool
  max_moves : Nat
  min_moves : Nat
  theme_tag : Option (List Char)
  max_rating : Nat
  min_rating : Nat
  exclude_pieces : List Char
  last_move_pieces : List Char
  from_puzzle_id : Option (List Char)
  to_puzzle_id : Option (List Char)
  rom_enabled : Bool
deriving DecidableEq

/-- Rust `String` ordering: lexicographic on the character sequence (for the
ASCII ids of interest, byte order and codepoint order agree). -/
def lexLt : List Char → List Char → Bool
  | [], [] => false
  | [], _ :: _ => true
  | _ :: _, [] => false
  | a :: xs, b :: ys => if a < b then true else if b < a then false else lexLt xs ys

/-- Rust `str::contains(needle)`: substring containment. -/
def containsSub : List Char → List Char → Bool
  | [], needle => needle.isEmpty
  | c :: t, needle => needle.isPrefixOf (c :: t) || containsSub t needle

/-- The alphabetic characters of the raw FEN (`piece_chars` in
`should_skip_puzzle` and `skip_reason`). -/
def fenPieceChars (p : Puzzle) : List Char := p.fen.filter Char.isAlpha

/-- `should_skip_puzzle` from src/chess/src/main.rs, check for check in
source order: empty move list, move count above max, move count below min,
rating above max, rating below min, excluded piece present (exact character
match against the configured letters), required theme tag not a substring of
any theme, id before the optional lower bound, id after the optional upper
bound. -/
def should_skip_puzzle (p : Puzzle) (c : Config) : Bool :=
  if p.moves.isEmpty then true
  else if c.max_moves < p.moves.length then true
  else if p.moves.length < c.min_moves then true
  else if c.max_rating < p.rating then true
  else if p.rating < c.min_rating then true
  else if c.exclude_pieces.any (fun q => (fenPieceChars p).contains q) then true
  else if (match c.theme_tag with
           | some th => !(p.themes.any (fun t => containsSub t th))
           | none => false) then true
  else if (match c.from_puzzle_id with
           | some fid => lexLt p.id fid
           | none => false) then true
  else if (match c.to_puzzle_id with
           | some tid => lexLt tid p.id
           | none => false) then true
  else false

/-- Rust `Vec::join(", ")` over the theme list. -/
def joinComma : List (List Char) → List Char
  | [] => []
  | [t] => t
  | t :: s :: rest => t ++ ',' :: ' ' :: joinComma (s :: rest)

/-- The tail of `skip_reason` after the rating checks: required-theme check
(note: before the excluded-piece check, unlike `should_skip_puzzle`), then
the excluded-piece check, then the id-range checks, then the fallback
message. -/
def skip_reason_id (p : Puzzle) (c : Config) : List Char :=
  if (match c.from_puzzle_id with
      | some fid => lexLt p.id fid
      | none => false) then
    match c.from_puzzle_id with
    | some fid => "ID ".toList ++ p.id ++ " < from ID ".toList ++ fid
    | none => []
  else if (match c.to_puzzle_id with
           | some tid => lexLt tid p.id
           | none => false) then
    match c.to_puzzle_id with
    | some tid => "ID ".toList ++ p.id ++ " > to ID ".toList ++ tid
    | none => []
  else "unknown reason (this shouldn't happen)".toList

def skip_reason_excl (p : Puzzle) (c : Config) : List Char :=
  match c.exclude_pieces.find? (fun q => (fenPieceChars p).contains q) with
  | some q => "contains excluded piece '".toList ++ q :: "'".toList
  | none => skip_reason_id p c

def skip_reason_theme (p : Puzzle) (c : Config) : List Char :=
  match c.theme_tag with
  | some th =>
      if !(p.themes.any (fun t => containsSub t th)) then
        "missing required theme '".toList ++ th ++ "' (has: ".toList ++
          joinComma p.themes ++ ")".toList
      else skip_reason_excl p c
  | none => skip_reason_excl p c

/-- `skip_reason` from src/chess/src/main.rs: the early returns are factored
into `skip_reason_theme`/`skip_reason_excl`/`skip_reason_id`, preserving the
source's check order (theme before excluded piece). -/
def skip_reason (p : Puzzle) (c : Config) : List Char :=
  if p.moves.isEmpty then "no moves".toList
  else if c.max_moves < p.moves.length then
    "move count ".toList ++ natStr p.moves.length ++ " > max ".toList ++ natStr c.max_moves
  else if p.moves.length < c.min_moves then
    "move count ".toList ++ natStr p.moves.length ++ " < min ".toList ++ natStr c.min_moves
  else if c.max_rating < p.rating then
    "rating ".toList ++ natStr p.rating ++ " > max ".toList ++ natStr c.max_rating
  else if p.rating < c.min_rating then
    "rating ".toList ++ natStr p.rating ++ " < min ".toList ++ natStr c.min_rating
  else skip_reason_theme p c

/-! Named forms of the nine individual checks and their diagnostic messages,
used to state the filter-order claim. -/

def chkEmpty (p : Puzzle) (_ : Config) : Bool := p.moves.isEmpty

def chkMovesHi (p : Puzzle) (c : Config) : Bool := decide (c.max_moves < p.moves.length)

def chkMovesLo (p : Puzzle) (c : Config) : Bool := decide (p.moves.length < c.min_moves)

def chkRatingHi (p : Puzzle) (c : Config) : Bool := decide (c.max_rating < p.rating)

def chkRatingLo (p : Puzzle) (c : Config) : Bool := decide (p.rating < c.min_rating)

def chkExcluded (p : Puzzle) (c : Config) : Bool :=
  c.exclude_pieces.any (fun q => (fenPieceChars p).contains q)

def chkTheme (p : Puzzle) (c : Config) : Bool :=
  match c.theme_tag with
  | some th => !(p.themes.any (fun t => containsSub t th))
  | none => false

def chkIdLo (p : Puzzle) (c : Config) : Bool :=
  match c.from_puzzle_id with
  | some fid => lexLt p.id fid
  | none => false

def chkIdHi (p : Puzzle) (c : Config) : Bool :=
  match c.to_puzzle_id with
  | some tid => lexLt tid p.id
  | none => false

def msgEmpty (_ : Puzzle) (_ : Config) : List Char := "no moves".toList

def msgMovesHi (p : Puzzle) (c : Config) : List Char :=
  "move count ".toList ++ natStr p.moves.length ++ " > max ".toList ++ natStr c.max_moves

def msgMovesLo (p : Puzzle) (c : Config) : List Char :=
  "move count ".toList ++ natStr p.moves.length ++ " < min ".toList ++ natStr c.min_moves

def msgRatingHi (p : Puzzle) (c : Config) : List Char :=
  "rating ".toList ++ natStr p.rating ++ " > max ".toList ++ natStr c.max_rating

def msgRatingLo (p : Puzzle) (c : Config) : List Char :=
  "rating ".toList ++ natStr p.rating ++ " < min ".toList ++ natStr c.min_rating

def msgTheme (p : Puzzle) (c : Config) : List Char :=
  match c.theme_tag with
  | some th =>
      "missing required theme '".toList ++ th ++ "' (has: ".toList ++
        joinComma p.themes ++ ")".toList
  | none => []

def msgExcluded (p : Puzzle) (c : Config) : List Char :=
  match c.exclude_pieces.find? (fun q => (fenPieceChars p).contains q) with
  | some q => "contains excluded piece '".toList ++ q :: "'".toList
  | none => []

def msgIdLo (p : Puzzle) (c : Config) : List Char :=
  match c.from_puzzle_id with
  | some fid => "ID ".toList ++ p.id ++ " < from ID ".toList ++ fid
  | none => []

def msgIdHi (p : Puzzle) (c : Config) : List Char :=
  match c.to_puzzle_id with
  | some tid => "ID ".toList ++ p.id ++ " > to ID ".toList ++ tid
  | none => []

/-- The first message whose check fired, with a fallback default: the
short-circuit shape shared by `skip_reason` and the order the claim
prescribes. -/
def firstMsgList : List (Bool × List Char) → List Char → List Char
  | [], d => d
  | (b, msg) :: rest, d => if b then msg else firstMsgList rest d

/-- The claim's reading of the diagnostic order, with the excluded-piece
check (4) strictly before the required-theme check (5).  This definition
follows the claim's words, for comparison with the source's `skip_reason`. -/
def skipReasonClaimOrder (p : Puzzle) (c : Config) : List Char :=
  firstMsgList
    [(chkEmpty p c, msgEmpty p c), (chkMovesHi p c, msgMovesHi p c),
     (chkMovesLo p c, msgMovesLo p c), (chkRatingHi p c, msgRatingHi p c),
     (chkRatingLo p c, msgRatingLo p c), (chkExcluded p c, msgExcluded p c),
     (chkTheme p c, msgTheme p c), (chkIdLo p c, msgIdLo p c),
     (chkIdHi p c, msgIdHi p c)]
    ("unknown reason (this shouldn't happen)".toList)

/-- A puzzle and configuration on which both the excluded-piece check and
the required-theme check fail. -/
def puzzleBothFail : Puzzle :=
  ⟨"x".toList, "k7/8/8/8/8/8/8/K7 w - - 0 1".toList, ["a2a3".toList], 1000,
   ["pin".toList], 'w'⟩

def cfgBothFail : Config :=
  ⟨false, false, 10, 1, some ("fork".toList), 3000, 500, ['k'],
   ['p', 'r', 'n', 'b', 'k', 'q'], none, none, true⟩

/-- A puzzle whose FEN holds only the uppercase form of the excluded letter. -/
def puzzleUpperOnly : Puzzle :=
  ⟨"x".toList, "K7/8/8/8/8/8/8/8 b - - 0 1".toList, ["a2a3".toList], 1000,
   ["pin".toList], 'b'⟩

def cfgUpperOnly : Config :=
  ⟨false, false, 10, 1, none, 3000, 500, ['k'],
   ['p', 'r', 'n', 'b', 'k', 'q'], none, none, true⟩

/-! The puzzle emitter of src/chess/src/main.rs, with the file sink modelled
as an association list from file names to contents. -/

/-- Rust `str::split(sep)` (keeps empty segments). -/
def splitOnChar (sep : Char) : List Char → List (List Char)
  | [] => [[]]
  | c :: rest =>
      if c = sep then [] :: splitOnChar sep rest
      else
        match splitOnChar sep rest with
        | s :: ss => (c :: s) :: ss
        | [] => [[c]]

/-- `reverse_fen` from src/chess/src/lib.rs: split into ranks, reverse the
rank order, reverse each rank, re-join with '/'. -/
def reverse_fen (fen : List Char) : List Char :=
  joinRanks (((splitOnChar '/' fen).reverse).map List.reverse)

/-- Rust `str::split_whitespace` (no empty tokens), with an accumulator for
the token being read. -/
def splitWsAux : List Char → List Char → List (List Char)
  | [], cur => if cur.isEmpty then [] else [cur.reverse]
  | c :: rest, cur =>
      if c.isWhitespace then
        if cur.isEmpty then splitWsAux rest []
        else cur.reverse :: splitWsAux rest []
      else splitWsAux rest (c :: cur)

def splitWs (s : List Char) : List (List Char) := splitWsAux s []

/-- The file sink: an association list from names to contents, one entry per
existing file. -/
abbrev Sink := List (List Char × List Char)

def rmName (s : Sink) (n : List Char) : Sink := s.filter (fun e => !(e.1 == n))

def hasName (s : Sink) (n : List Char) : Bool := s.any (fun e => e.1 == n)

/-- `fs::write`: create or overwrite. -/
def writeFile (s : Sink) (n content : List Char) : Sink := (n, content) :: rmName s n

/-- `fs::remove_file`: fails (`none`) when the file does not exist. -/
def removeFile (s : Sink) (n : List Char) : Option Sink :=
  if hasName s n then some (rmName s n) else none

/-- The output file name
`fenpuzzles/puzzle-{id}-{rating}-{theme|none}-{move:02}.txt`. -/
def fname (p : Puzzle) (c : Config) (i : Nat) : List Char :=
  "fenpuzzles/puzzle-".toList ++ p.id ++ '-' :: natStr p.rating ++ '-' ::
    (c.theme_tag.getD ("none".toList)) ++ '-' :: fmt2 i ++ ".txt".toList

/-- The names of a puzzle's `n` move-record files, moves numbered from 1. -/
def fnames (p : Puzzle) (c : Config) (n : Nat) : List (List Char) :=
  (List.range n).map (fun i => fname p c (i + 1))

/-- The validation pass of `process_puzzle`: parse and apply every move on a
scratch board, stopping at the first error (or panic, `none`). -/
def validateLoop : List Char → List (List Char) → Option (Except ChessError (List Char))
  | fen, [] => some (.ok fen)
  | fen, mv :: rest =>
      match parse_move mv with
      | none => none
      | some (.error e) => some (.error e)
      | some (.ok cm) =>
          match apply_move fen cm with
          | none => none
          | some (.error e) => some (.error e)
          | some (.ok (nf, _)) => validateLoop nf rest

/-- The emission pass of `process_puzzle`: replay the moves, write one
record per move (named by its 1-based number), and return the piece moved
by the final move alongside the updated sink; failures carry the partially
written sink. -/
def emitLoop (p : Puzzle) (c : Config) :
    List Char → List (List Char) → Nat → Char → Sink →
    Option (Sink × Except ChessError Char)
  | _, [], _, pc, sink => some (sink, .ok pc)
  | fen, mv :: rest, i, _, sink =>
      match parse_move mv with
      | none => none
      | some (.error e) => some (sink, .error e)
      | some (.ok cm) =>
          match apply_move fen cm with
          | none => none
          | some (.error e) => some (sink, .error e)
          | some (.ok (nf, piece)) =>
              match move_to_index mv (p.first_move == 'w') with
              | none => none
              | some (.error e) => some (sink, .error e)
              | some (.ok imove) =>
                  let outputFen := if p.first_move == 'w' then reverse_fen nf else nf
                  let content := p.id ++ ',' :: expand_fen outputFen ++ ',' :: imove ++
                    ',' :: natStr (i + 1) ++ ',' :: natStr p.moves.length
                  emitLoop p c nf rest (i + 1) piece
                    (writeFile sink (fname p c (i + 1)) content)

/-- The rollback loop of `process_puzzle`: remove the named files in order,
stopping at (and reporting) the first failure. -/
def removeLoop : Sink → List (List Char) → Sink × Bool
  | sink, [] => (sink, true)
  | sink, n :: rest =>
      match removeFile sink n with
      | none => (sink, false)
      | some s2 => removeLoop s2 rest

/-- `process_puzzle` from src/chess/src/main.rs: take the FEN's board field
(panicking when the FEN is all whitespace), validate all moves, emit one
record per move, then — when the lowercased final moved piece is not in the
configured last-move-pieces set — delete every record just written.  The
returned count is the number of validated moves. -/
def process_puzzle (p : Puzzle) (c : Config) (sink : Sink) :
    Option (Sink × Except ChessError Nat) :=
  match (splitWs p.fen).head? with
  | none => none
  | some fen0 =>
      match validateLoop fen0 p.moves with
      | none => none
      | some (.error e) => some (sink, .error e)
      | some (.ok _) =>
          match emitLoop p c fen0 p.moves 0 ' ' sink with
          | none => none
          | some (sink1, .error e) => some (sink1, .error e)
          | some (sink1, .ok piece) =>
              if c.last_move_pieces.contains piece.toLower then
                some (sink1, .ok p.moves.length)
              else
                match removeLoop sink1 (fnames p c p.moves.length) with
                | (s2, true) => some (s2, .ok p.moves.length)
                | (s2, false) => some (s2, .error .ioError)

/-- Pure replay of a puzzle's moves computing only the piece moved by the
final move (the `moved_piece` variable of `process_puzzle`). -/
def lastMovedAux : List Char → List (List Char) → Char → Option (Except ChessError Char)
  | _, [], pc => some (.ok pc)
  | fen, mv :: rest, _ =>
      match parse_move mv with
      | none => none
      | some (.error e) => some (.error e)
      | some (.ok cm) =>
          match apply_move fen cm with
          | none => none
          | some (.error e) => some (.error e)
          | some (.ok (nf, piece)) => lastMovedAux nf rest piece

def lastMovedPiece (p : Puzzle) : Option (Except ChessError Char) :=
  match (splitWs p.fen).head? with
  | none => none
  | some fen0 => lastMovedAux fen0 p.moves ' '

/-- A one-move puzzle whose pawn move is rejected by a last-move-pieces set
holding only knights. -/
def puzzleRollback : Puzzle :=
  ⟨"ab".toList, "8/P7/8/8/8/8/8/8 w - - 0 1".toList, ["a7a6".toList], 1000,
   ["mate".toList], 'w'⟩

def cfgRollback : Config :=
  ⟨false, false, 10, 1, none, 3000, 500, [], ['n'], none, none, true⟩

/-! The ROM assembler of src/chess/src/main.rs.  Groups of move-record file
contents are given as input (the directory scan and filename grouping are
file-system glue); record text is ASCII, so Rust's byte lengths coincide
with character counts. -/

def ROW_SIZE : Nat := 96

def FLASH_SIZE : Nat := 16777216

def CONFIG_SECTOR_SIZE : Nat := 4096

def MAX_ROM_DATA_SIZE : Nat := FLASH_SIZE - CONFIG_SECTOR_SIZE

def MAX_ROM_PAGES : Nat := MAX_ROM_DATA_SIZE / ROW_SIZE

/-- Rust `str::trim_end`. -/
def trimEnd (s : List Char) : List Char := (s.reverse.dropWhile Char.isWhitespace).reverse

/-- Rust `str::trim`. -/
def trim (s : List Char) : List Char :=
  ((s.dropWhile Char.isWhitespace).reverse.dropWhile Char.isWhitespace).reverse

def charBytes (s : List Char) : List Nat := s.map Char.toNat

/-- Pack one puzzle group: each record's trimmed text, padded with zero
bytes to exactly `ROW_SIZE`; a record longer than a row is the
`RecordTooLarge` error (`none`). -/
def packGroup : List (List Char) → List Nat → Option (List Nat)
  | [], acc => some acc
  | f :: rest, acc =>
      if ROW_SIZE < (trimEnd f).length then none
      else packGroup rest
        (acc ++ charBytes (trimEnd f) ++ List.replicate (ROW_SIZE - (trimEnd f).length) 0)

/-- Pack whole groups until the first group that would overflow the data
region; that group and all later ones are dropped (a `break`, not a skip). -/
def packGroups : List (List (List Char)) → List Nat → Option (List Nat)
  | [], acc => some acc
  | g :: rest, acc =>
      if MAX_ROM_DATA_SIZE < acc.length + g.length * ROW_SIZE then some acc
      else
        match packGroup g acc with
        | none => none
        | some acc2 => packGroups rest acc2

/-- `u32::to_le_bytes` of a count cast with `as u32` (truncation mod 2^32). -/
def uleBytes4 (n : Nat) : List Nat :=
  [n % 4294967296 % 256, n % 4294967296 / 256 % 256,
   n % 4294967296 / 65536 % 256, n % 4294967296 / 16777216 % 256]

/-- The 4096-byte configuration sector: magic, page count, byte count,
type/font bytes, one populated type/size slot, zero padding — all computed
from the `row_count` argument alone. -/
def configSector (rc : Nat) : List Nat :=
  [0x19, 0x17, 0x13, 0x11] ++ uleBytes4 rc ++ uleBytes4 (rc * ROW_SIZE) ++
    [1, 1, 0, 0, 4, 0, 0, 0] ++ uleBytes4 ROW_SIZE ++ List.replicate 12 0 ++
    List.replicate 4060 0

/-- `generate_rom` from src/chess/src/main.rs: pack the groups, zero-pad the
data region to its fixed size, append the configuration sector. -/
def generate_rom (rowCount : Nat) (groups : List (List (List Char))) : Option (List Nat) :=
  match packGroups groups [] with
  | none => none
  | some data =>
      some ((data ++ List.replicate (MAX_ROM_DATA_SIZE - data.length) 0) ++
        configSector rowCount)

/-- Rust `str::parse::<u32>` restricted to plain digit strings. -/
def parseU32 (s : List Char) : Option Nat :=
  if s.isEmpty || !(s.all (fun c => decide ('0' ≤ c ∧ c ≤ '9'))) then none
  else
    if s.foldl (fun a c => a * 10 + digitVal c) 0 < 4294967296 then
      some (s.foldl (fun a c => a * 10 + digitVal c) 0)
    else none

/-- `parse_puzzle_record` from src/chess/src/main.rs, over a pre-split CSV
record (a list of at least 8 fields). -/
def parse_puzzle_record (r : List (List Char)) : Except ChessError Puzzle :=
  if r.length < 8 then .error .invalidInput
  else
    match parseU32 (r.getD 3 []) with
    | none => .error .invalidInput
    | some rating =>
        .ok ⟨r.getD 0 [], (splitWs (r.getD 1 [])).headD [],
          splitWs (r.getD 2 []), rating,
          (splitOnChar ',' (r.getD 7 [])).map (fun t => (trim t).map Char.toLower),
          ((splitWs (r.getD 1 [])).getD 1 []).headD 'w'⟩

/-- The observable outcome of the record-processing loop in `main`. -/
structure RunResult where
  pageCount : Nat
  puzzleCount : Nat
  skippedCount : Nat
  sink : Sink
deriving DecidableEq

/-- The record-processing loop of `main` (src/chess/src/main.rs lines
132-181): the capacity test uses the previous puzzle's page count, malformed
records are skipped, filtered puzzles increment the skip counter, and a
processed puzzle's page count is added whether or not its records were later
rolled back. -/
def mainLoop (c : Config) :
    List (List (List Char)) → Nat → Nat → Nat → Nat → Sink → Option RunResult
  | [], pc, _, ct, sk, s => some ⟨pc, ct, sk, s⟩
  | r :: rest, pc, cur, ct, sk, s =>
      if MAX_ROM_PAGES < pc + cur then some ⟨pc, ct, sk, s⟩
      else
        match parse_puzzle_record r with
        | .error _ => mainLoop c rest pc cur ct sk s
        | .ok p =>
            if should_skip_puzzle p c then mainLoop c rest pc cur ct (sk + 1) s
            else
              match process_puzzle p c s with
              | none => none
              | some (s2, .error _) => mainLoop c rest pc cur ct sk s2
              | some (s2, .ok pages) => mainLoop c rest (pc + pages) pages (ct + 1) sk s2

/-- A CSV record (8 fields) for the rollback puzzle. -/
def recordRollback : List (List Char) :=
  ["ab".toList, "8/P7/8/8/8/8/8/8 w - - 0 1".toList, "a7a6".toList, "1000".toList,
   [], [], [], "mate".toList]

def cfgRun : Config :=
  ⟨false, false, 10, 1, none, 3000, 500, [], ['n'], none, none, true⟩

theorem char_toNat_inj {a b : Char} (h : a.toNat = b.toNat) : a = b :=
  Char.ext (UInt32.ext h)

theorem char_le_toNat {a b : Char} : a ≤ b ↔ a.toNat ≤ b.toNat :=
  ⟨fun h => h, fun h => h⟩

theorem uint32_le_toNat {a b : UInt32} (h : a ≤ b) : a.toNat ≤ b.toNat := h

theorem alpha_not_digit {c : Char} (h : c.isAlpha = true) : ¬('1' ≤ c ∧ c ≤ '8') := by
  intro ⟨_, h2⟩
  have h2' : c.toNat ≤ 56 := char_le_toNat.mp h2
  simp only [Char.isAlpha, Char.isUpper, Char.isLower, Bool.or_eq_true,
    Bool.and_eq_true, decide_eq_true_eq] at h
  have hv : 65 ≤ c.toNat ∨ 97 ≤ c.toNat := by
    rcases h with ⟨h3, _⟩ | ⟨h3, _⟩
    · exact Or.inl (uint32_le_toNat h3)
    · exact Or.inr (uint32_le_toNat h3)
  omega

theorem boardChar_tame {c : Char} (h : boardChar c = true) : tameChar c := by
  simp only [boardChar, Bool.or_eq_true, beq_iff_eq] at h
  rcases h with h | h
  · exact Or.inl h
  · refine Or.inr ⟨?_, alpha_not_digit h⟩
    rintro rfl
    simp [Char.isAlpha, Char.isUpper, Char.isLower] at h

theorem boardChar_ne_slash {c : Char} (h : boardChar c = true) : c ≠ '/' := by
  simp only [boardChar, Bool.or_eq_true, beq_iff_eq] at h
  rintro rfl
  rcases h with h | h
  · exact absurd h (by decide)
  · simp [Char.isAlpha, Char.isUpper, Char.isLower] at h

theorem expandCore_append (s t : List Char) :
    expandCore (s ++ t) = expandCore s ++ expandCore t :=
  List.flatMap_append s t expandChar

theorem digit_natStr_expand {k : Nat} (h1 : 0 < k) (h8 : k ≤ 8) :
    expandCore (natStr k) = List.replicate k '1' := by
  interval_cases k <;> decide

/-- Flushing a pending count of at most 8 re-expands to exactly that many
'1' characters. -/
theorem expand_flush {k : Nat} (h8 : k ≤ 8) :
    expandCore (if 0 < k then natStr k else []) = List.replicate k '1' := by
  by_cases h0 : 0 < k
  · rw [if_pos h0, digit_natStr_expand h0 h8]
  · have : k = 0 := by omega
    subst this
    simp [expandCore]

/-- Core inversion lemma for the expand-after-compress direction: on input
whose characters are tame (or separators) and whose '1' runs are bounded by
8, the run-length pass is undone exactly by expansion, which also deletes
the separators. -/
theorem expandCore_compressCore :
    ∀ (t : List Char) (k : Nat), k ≤ 8 → runsOK t k = true →
      (∀ c ∈ t, tameChar c ∨ c = '/') →
      expandCore (compressCore t k) =
        List.replicate k '1' ++ t.filter (fun c => c != '/')
  | [], k, hk, _, _ => by
      simp only [compressCore, List.filter_nil, List.append_nil]
      exact expand_flush hk
  | c :: rest, k, hk, hr, hc => by
      by_cases h1 : c = '1'
      · subst h1
        rw [compressCore, if_pos rfl] at *
        rw [runsOK, if_pos rfl, Bool.and_eq_true, decide_eq_true_eq] at hr
        have ih := expandCore_compressCore rest (k + 1) hr.1 hr.2
          (fun c hcm => hc c (List.mem_cons_of_mem _ hcm))
        rw [ih]
        have h1s : List.replicate (k + 1) '1' = List.replicate k '1' ++ ['1'] := by
          rw [List.replicate_succ']
        rw [h1s]
        simp
      · rw [compressCore, if_neg h1]
        rw [runsOK, if_neg h1] at hr
        have ih := expandCore_compressCore rest 0 (by omega) hr
          (fun c hcm => hc c (List.mem_cons_of_mem _ hcm))
        rw [expandCore_append, expand_flush hk]
        have hmem := hc c (List.mem_cons_self _ _)
        by_cases hs : c = '/'
        · subst hs
          have : expandCore ('/' :: compressCore rest 0) = expandCore (compressCore rest 0) := by
            simp [expandCore, expandChar]
          rw [this, ih]
          simp
        · have htame : tameChar c := by
            rcases hmem with h | h
            · exact h
            · exact absurd h hs
          have hnd : ¬('1' ≤ c ∧ c ≤ '8') := by
            rcases htame with h | h
            · exact absurd h h1
            · exact h.2
          have hx : expandCore (c :: compressCore rest 0) = c :: expandCore (compressCore rest 0) := by
            simp [expandCore, expandChar, if_neg hnd, if_neg hs]
          rw [hx, ih]
          have hf : (c :: rest).filter (fun c => c != '/') =
              c :: rest.filter (fun c => c != '/') := by
            simp [List.filter_cons, hs]
          rw [hf]
          simp

/-- The slash-insertion pass only ever has runs of at most 8 '1' characters:
the invariant tracks the pending count against the position inside the
current 8-character block. -/
theorem runsOK_withSlashes :
    ∀ (s : List Char) (i k : Nat), (i = 0 → k = 0) → (i % 8 ≠ 0 → k ≤ i % 8) →
      k ≤ 8 → runsOK (withSlashesAux s i) k = true
  | [], _, _, _, _, _ => rfl
  | c :: rest, i, k, h0, hr, h8 => by
      rw [withSlashesAux]
      by_cases hi : i % 8 = 0 ∧ i ≠ 0
      · rw [if_pos hi]
        have hs : runsOK ('/' :: c :: withSlashesAux rest (i + 1)) k =
            runsOK (c :: withSlashesAux rest (i + 1)) 0 := by
          rw [runsOK, if_neg (by decide)]
        rw [List.cons_append, List.cons_append, List.nil_append, hs]
        by_cases h1 : c = '1'
        · subst h1
          rw [runsOK, if_pos rfl]
          refine (Bool.and_eq_true _ _).mpr ⟨by decide, ?_⟩
          exact runsOK_withSlashes rest (i + 1) 1 (by omega) (by omega) (by omega)
        · rw [runsOK, if_neg h1]
          exact runsOK_withSlashes rest (i + 1) 0 (by omega) (by omega) (by omega)
      · rw [if_neg hi, List.cons_append, List.nil_append]
        have hki : k ≤ 7 := by
          by_cases hz : i = 0
          · have := h0 hz; omega
          · have hm : i % 8 ≠ 0 := fun h => hi ⟨h, hz⟩
            have := hr hm
            have : i % 8 < 8 := Nat.mod_lt _ (by omega)
            omega
        by_cases h1 : c = '1'
        · subst h1
          rw [runsOK, if_pos rfl]
          refine (Bool.and_eq_true _ _).mpr ⟨by simp; omega, ?_⟩
          refine runsOK_withSlashes rest (i + 1) (k + 1) (by omega) ?_ (by omega)
          intro hm
          by_cases hz : i = 0
          · subst hz; simpa using by omega
          · have hm8 : i % 8 ≠ 0 := fun h => hi ⟨h, hz⟩
            have h2 := hr hm8
            have h3 : i % 8 < 8 := Nat.mod_lt _ (by omega)
            have h4 : (i + 1) % 8 = i % 8 + 1 ∨ (i + 1) % 8 = 0 := by omega
            rcases h4 with h4 | h4
            · omega
            · exact absurd h4 hm
        · rw [runsOK, if_neg h1]
          exact runsOK_withSlashes rest (i + 1) 0 (by omega) (by omega) (by omega)

/-- The characters produced by the slash-insertion pass are those of the
input plus separators. -/
theorem mem_withSlashes :
    ∀ (s : List Char) (i : Nat) (c : Char), c ∈ withSlashesAux s i → c ∈ s ∨ c = '/'
  | [], _, _, h => absurd h (List.not_mem_nil _)
  | d :: rest, i, c, h => by
      rw [withSlashesAux] at h
      rcases List.mem_append.mp h with h | h
      · by_cases hi : i % 8 = 0 ∧ i ≠ 0
        · rw [if_pos hi] at h
          rcases h with _ | ⟨_, h⟩
          · exact Or.inr rfl
          · rcases h with _ | ⟨_, h⟩
            · exact Or.inl (List.mem_cons_self _ _)
            · exact absurd h (List.not_mem_nil _)
        · rw [if_neg hi] at h
          rcases h with _ | ⟨_, h⟩
          · exact Or.inl (List.mem_cons_self _ _)
          · exact absurd h (List.not_mem_nil _)
      · rcases mem_withSlashes rest (i + 1) c h with h | h
        · exact Or.inl (List.mem_cons_of_mem _ h)
        · exact Or.inr h

/-- Removing the separators inserted by the slash pass recovers the input,
provided the input contained none of its own. -/
theorem filter_withSlashes :
    ∀ (s : List Char) (i : Nat), (∀ c ∈ s, c ≠ '/') →
      (withSlashesAux s i).filter (fun c => c != '/') = s
  | [], _, _ => rfl
  | c :: rest, i, h => by
      rw [withSlashesAux]
      have hc : c ≠ '/' := h c (List.mem_cons_self _ _)
      have ih := filter_withSlashes rest (i + 1)
        (fun d hd => h d (List.mem_cons_of_mem _ hd))
      by_cases hi : i % 8 = 0 ∧ i ≠ 0
      · rw [if_pos hi]
        simp [List.filter_cons, hc, ih]
      · rw [if_neg hi]
        simp [List.filter_cons, hc, ih]

/-- Round trip on the expanded side, in its general form: compressing and
re-expanding any string of tame non-separator characters gives back its
first 64 characters. -/
theorem expand_compress_take (x : List Char)
    (h : ∀ c ∈ x, tameChar c ∧ c ≠ '/') :
    expand_fen (compress_fen x) = x.take 64 := by
  unfold expand_fen compress_fen
  rw [expandCore_compressCore (withSlashesAux x 0) 0 (by omega)
    (runsOK_withSlashes x 0 0 (fun _ => rfl) (by omega) (by omega))
    (fun c hc => by
      rcases mem_withSlashes x 0 c hc with hm | hm
      · exact Or.inl (h c hm).1
      · exact Or.inr hm)]
  rw [List.replicate_zero, List.nil_append,
    filter_withSlashes x 0 (fun c hc => (h c hc).2)]

theorem digitVal_bounds {c : Char} (h1 : '1' ≤ c) (h8 : c ≤ '8') :
    1 ≤ digitVal c ∧ digitVal c ≤ 8 := by
  have hl : 49 ≤ c.toNat := char_le_toNat.mp h1
  have hr : c.toNat ≤ 56 := char_le_toNat.mp h8
  unfold digitVal
  omega

theorem digit_char_cases {c : Char} (h1 : '1' ≤ c) (h8 : c ≤ '8') :
    c = '1' ∨ c = '2' ∨ c = '3' ∨ c = '4' ∨ c = '5' ∨ c = '6' ∨ c = '7' ∨ c = '8' := by
  have hl : 49 ≤ c.toNat := char_le_toNat.mp h1
  have hr : c.toNat ≤ 56 := char_le_toNat.mp h8
  have hn : c.toNat = 49 ∨ c.toNat = 50 ∨ c.toNat = 51 ∨ c.toNat = 52 ∨
      c.toNat = 53 ∨ c.toNat = 54 ∨ c.toNat = 55 ∨ c.toNat = 56 := by omega
  rcases hn with h | h | h | h | h | h | h | h
  · exact Or.inl (char_toNat_inj (b := '1') (by rw [h]; decide))
  · exact Or.inr (Or.inl (char_toNat_inj (b := '2') (by rw [h]; decide)))
  · exact Or.inr (Or.inr (Or.inl (char_toNat_inj (b := '3') (by rw [h]; decide))))
  · exact Or.inr (Or.inr (Or.inr (Or.inl (char_toNat_inj (b := '4') (by rw [h]; decide)))))
  · exact Or.inr (Or.inr (Or.inr (Or.inr (Or.inl
      (char_toNat_inj (b := '5') (by rw [h]; decide))))))
  · exact Or.inr (Or.inr (Or.inr (Or.inr (Or.inr (Or.inl
      (char_toNat_inj (b := '6') (by rw [h]; decide)))))))
  · exact Or.inr (Or.inr (Or.inr (Or.inr (Or.inr (Or.inr (Or.inl
      (char_toNat_inj (b := '7') (by rw [h]; decide))))))))
  · exact Or.inr (Or.inr (Or.inr (Or.inr (Or.inr (Or.inr (Or.inr
      (char_toNat_inj (b := '8') (by rw [h]; decide))))))))

theorem natStr_digitVal {c : Char} (h1 : '1' ≤ c) (h8 : c ≤ '8') :
    natStr (digitVal c) = [c] := by
  rcases digit_char_cases h1 h8 with h | h | h | h | h | h | h | h <;>
    · subst h
      decide

theorem alpha_ne_one {c : Char} (h : c.isAlpha = true) : c ≠ '1' := by
  rintro rfl
  simp [Char.isAlpha, Char.isUpper, Char.isLower] at h

theorem expandCore_cons (c : Char) (rest : List Char) :
    expandCore (c :: rest) = expandChar c ++ expandCore rest := rfl

theorem expandChar_alpha {c : Char} (h : c.isAlpha = true) : expandChar c = [c] := by
  have hnd := alpha_not_digit h
  have hns : c ≠ '/' := by
    rintro rfl
    simp [Char.isAlpha, Char.isUpper, Char.isLower] at h
  simp [expandChar, if_neg hnd, if_neg hns]

theorem expandChar_digit {c : Char} (h1 : '1' ≤ c) (h8 : c ≤ '8') :
    expandChar c = List.replicate (digitVal c) '1' := by
  simp [expandChar, if_pos (And.intro h1 h8)]

/-- Expanding a well-charactered rank yields as many squares as its width. -/
theorem expandCore_length_rank :
    ∀ r : List Char, (∀ c ∈ r, isDigit18 c || c.isAlpha) →
      (expandCore r).length = rankWidth r
  | [], _ => rfl
  | c :: rest, h => by
      have hc := h c (List.mem_cons_self _ _)
      have ih := expandCore_length_rank rest (fun d hd => h d (List.mem_cons_of_mem _ hd))
      rw [expandCore_cons, List.length_append, ih, rankWidth]
      by_cases hd : isDigit18 c = true
      · have h18 : '1' ≤ c ∧ c ≤ '8' := of_decide_eq_true hd
        rw [expandChar_digit h18.1 h18.2, List.length_replicate, if_pos hd]
      · have ha : c.isAlpha = true := by
          rcases Bool.or_eq_true _ _ |>.mp hc with h' | h'
          · exact absurd h' hd
          · exact h'
        rw [expandChar_alpha ha, if_neg hd]
        rfl

/-- Feeding a run of '1' characters into the run-length pass accumulates
its length into the pending count. -/
theorem compressCore_ones :
    ∀ (d : Nat) (s : List Char) (k : Nat),
      compressCore (List.replicate d '1' ++ s) k = compressCore s (k + d)
  | 0, s, k => by simp
  | d + 1, s, k => by
      rw [List.replicate_succ, List.cons_append, compressCore, if_pos rfl,
        compressCore_ones d s (k + 1)]
      ring_nf

/-- When the next character does not extend the run, a pending count can be
flushed eagerly. -/
theorem compressCore_flush (s : List Char) (k : Nat) (h : s.head? ≠ some '1') :
    compressCore s k = (if 0 < k then natStr k else []) ++ compressCore s 0 := by
  cases s with
  | nil => simp [compressCore]
  | cons c rest =>
      have hc : c ≠ '1' := by
        intro h'
        exact h (by rw [h']; rfl)
      simp only [compressCore, if_neg hc]
      simp

theorem rankNoAdj_tail {c : Char} {rest : List Char} (h : rankNoAdj (c :: rest) = true) :
    rankNoAdj rest = true := by
  cases rest with
  | nil => rfl
  | cons b r =>
      rw [rankNoAdj, Bool.and_eq_true] at h
      exact h.2

theorem rankNoAdj_head {a b : Char} {rest : List Char}
    (h : rankNoAdj (a :: b :: rest) = true) (ha : isDigit18 a = true) :
    isDigit18 b = false := by
  rw [rankNoAdj, Bool.and_eq_true] at h
  have := h.1
  rw [Bool.not_eq_true', Bool.and_eq_false_iff] at this
  rcases this with h' | h'
  · rw [ha] at h'; exact absurd h' (by decide)
  · exact h'

/-- Compressing the expansion of a well-formed rank followed by material that
does not start with a filler character reproduces the rank verbatim. -/
theorem rank_compress :
    ∀ (r t : List Char), (∀ c ∈ r, isDigit18 c || c.isAlpha) →
      rankNoAdj r = true → t.head? ≠ some '1' →
      compressCore (expandCore r ++ t) 0 = r ++ compressCore t 0
  | [], t, _, _, _ => by simp [expandCore]
  | c :: rest, t, hall, hadj, ht => by
      have hc := hall c (List.mem_cons_self _ _)
      have hall' : ∀ d ∈ rest, isDigit18 d || d.isAlpha :=
        fun d hd => hall d (List.mem_cons_of_mem _ hd)
      by_cases hd : isDigit18 c = true
      · have h18 : '1' ≤ c ∧ c ≤ '8' := of_decide_eq_true hd
        rw [expandCore_cons, expandChar_digit h18.1 h18.2, List.append_assoc,
          compressCore_ones]
        have hdv := digitVal_bounds h18.1 h18.2
        have hhead : (expandCore rest ++ t).head? ≠ some '1' := by
          cases rest with
          | nil => simpa [expandCore] using ht
          | cons b r =>
              have hb : isDigit18 b = false := rankNoAdj_head hadj hd
              have hba : b.isAlpha = true := by
                rcases Bool.or_eq_true _ _ |>.mp (hall' b (List.mem_cons_self _ _)) with h' | h'
                · exact absurd h' (by rw [hb]; exact fun h => by cases h)
                · exact h'
              rw [expandCore_cons, expandChar_alpha hba]
              intro h'
              exact alpha_ne_one hba (by simpa using h')
        rw [compressCore_flush _ _ hhead, if_pos (by omega),
          show (0 + digitVal c) = digitVal c from by omega, natStr_digitVal h18.1 h18.2,
          rank_compress rest t hall' (rankNoAdj_tail hadj) ht]
        simp
      · have ha : c.isAlpha = true := by
          rcases Bool.or_eq_true _ _ |>.mp hc with h' | h'
          · exact absurd h' hd
          · exact h'
        rw [expandCore_cons, expandChar_alpha ha, List.cons_append, List.nil_append,
          List.cons_append]
        have hstep : compressCore (c :: (expandCore rest ++ t)) 0 =
            c :: compressCore (expandCore rest ++ t) 0 := by
          simp [compressCore, alpha_ne_one ha]
        rw [hstep, rank_compress rest t hall' (rankNoAdj_tail hadj) ht]
        simp

/-- Compressing the slash-joined expansions of well-formed ranks reproduces
the slash-joined ranks. -/
theorem joinRanks_compress :
    ∀ ranks : List (List Char),
      (∀ r ∈ ranks, (∀ c ∈ r, isDigit18 c || c.isAlpha) ∧ rankNoAdj r = true) →
      compressCore (joinRanks (ranks.map expandCore)) 0 = joinRanks ranks
  | [], _ => rfl
  | [r], h => by
      have hr := h r (List.mem_cons_self _ _)
      have := rank_compress r [] hr.1 hr.2 (by simp)
      simpa [joinRanks, compressCore] using this
  | r :: s :: rest, h => by
      have hr := h r (List.mem_cons_self _ _)
      have ih := joinRanks_compress (s :: rest)
        (fun q hq => h q (List.mem_cons_of_mem _ hq))
      rw [List.map_cons, List.map_cons, joinRanks, ← List.map_cons,
        rank_compress r _ hr.1 hr.2 (by simp)]
      have hsl : compressCore ('/' :: joinRanks ((s :: rest).map expandCore)) 0 =
          '/' :: compressCore (joinRanks ((s :: rest).map expandCore)) 0 := by
        simp [compressCore]
      rw [hsl, ih, joinRanks]

/-- Inside an 8-character block no slash is inserted. -/
theorem withSlashesAux_block :
    ∀ (e : List Char) (rest : List Char) (i : Nat),
      (∀ j < e.length, (i + j) % 8 ≠ 0) →
      withSlashesAux (e ++ rest) i = e ++ withSlashesAux rest (i + e.length)
  | [], rest, i, _ => by simp [withSlashesAux]
  | c :: e, rest, i, h => by
      have h0 : i % 8 ≠ 0 := by
        have := h 0 (by simp)
        simpa using this
      rw [List.cons_append, withSlashesAux, if_neg (fun hx => h0 hx.1),
        withSlashesAux_block e rest (i + 1) (fun j hj => by
          have hh := h (j + 1) (by simp; omega)
          intro hx
          exact hh (by omega))]
      have hlen : i + 1 + e.length = i + (c :: e).length := by
        simp [List.length_cons]
        omega
      rw [hlen]
      simp

/-- An aligned 8-character block: one slash in front (except at the start),
then the block verbatim. -/
theorem withSlashesAux_aligned :
    ∀ (e rest : List Char) (i : Nat), e.length = 8 → i % 8 = 0 →
      withSlashesAux (e ++ rest) i =
        (if i = 0 then [] else ['/']) ++ e ++ withSlashesAux rest (i + 8)
  | [], _, _, hlen, _ => by simp at hlen
  | c :: e, rest, i, hlen, hmod => by
      rw [List.cons_append, withSlashesAux,
        withSlashesAux_block e rest (i + 1) (fun j hj => by
          have hje : j < 7 := by
            have : e.length = 7 := by simpa using hlen
            omega
          omega)]
      have hel : e.length = 7 := by simpa using hlen
      rw [hel]
      by_cases hi : i = 0
      · subst hi
        rw [if_neg (by simp), if_pos rfl]
        simp
      · rw [if_pos ⟨hmod, hi⟩, if_neg hi]
        simp [Nat.add_assoc]

theorem joinRanks_cons_eq (e : List Char) (rest : List (List Char)) :
    joinRanks (e :: rest) = e ++ (rest.map (fun r => '/' :: r)).flatten := by
  induction rest generalizing e with
  | nil => simp [joinRanks]
  | cons s rr ih =>
      rw [joinRanks, ih]
      simp

/-- Away from the origin, slash insertion turns a sequence of aligned blocks
into slash-prefixed blocks. -/
theorem withSlashesAux_blocks :
    ∀ (es : List (List Char)) (i : Nat), (∀ e ∈ es, e.length = 8) →
      i % 8 = 0 → i ≠ 0 →
      withSlashesAux es.flatten i = (es.map (fun e => '/' :: e)).flatten
  | [], _, _, _, _ => rfl
  | e :: es, i, hlen, hmod, hne => by
      rw [List.flatten_cons, withSlashesAux_aligned e _ i
        (hlen e (List.mem_cons_self _ _)) hmod, if_neg hne,
        withSlashesAux_blocks es (i + 8) (fun d hd => hlen d (List.mem_cons_of_mem _ hd))
          (by omega) (by omega)]
      simp

/-- Slash insertion on a flat sequence of 8-character blocks is exactly the
slash join of the blocks. -/
theorem withSlashes_flatten (es : List (List Char)) (h : ∀ e ∈ es, e.length = 8) :
    withSlashesAux es.flatten 0 = joinRanks es := by
  cases es with
  | nil => rfl
  | cons e rest =>
      rw [List.flatten_cons, withSlashesAux_aligned e _ 0
        (h e (List.mem_cons_self _ _)) (by omega), if_pos rfl, List.nil_append,
        joinRanks_cons_eq]
      cases rest with
      | nil => rfl
      | cons s rr =>
          rw [withSlashesAux_blocks (s :: rr) 8
            (fun d hd => h d (List.mem_cons_of_mem _ hd)) (by omega) (by omega)]

theorem expandCore_joinRanks :
    ∀ ranks : List (List Char),
      expandCore (joinRanks ranks) = (ranks.map expandCore).flatten
  | [] => rfl
  | [r] => by simp [joinRanks]
  | r :: s :: rest => by
      rw [joinRanks, expandCore_append, expandCore_cons,
        show expandChar '/' = [] from by decide,
        expandCore_joinRanks (s :: rest)]
      simp

theorem flatten_length_blocks :
    ∀ es : List (List Char), (∀ e ∈ es, e.length = 8) →
      es.flatten.length = 8 * es.length
  | [], _ => rfl
  | e :: rest, h => by
      rw [List.flatten_cons, List.length_append, h e (List.mem_cons_self _ _),
        flatten_length_blocks rest (fun d hd => h d (List.mem_cons_of_mem _ hd))]
      simp [Nat.mul_succ, Nat.add_comm]

/-- Compress-after-expand round trip for a well-formed compact board given as
its list of eight well-formed ranks. -/
theorem compress_expand_wf (ranks : List (List Char)) (h8 : ranks.length = 8)
    (hok : ∀ r ∈ ranks, rankOK r = true) :
    compress_fen (expand_fen (joinRanks ranks)) = joinRanks ranks := by
  have hall : ∀ r ∈ ranks, (∀ c ∈ r, isDigit18 c || c.isAlpha) := by
    intro r hr
    have := hok r hr
    rw [rankOK, Bool.and_eq_true, Bool.and_eq_true] at this
    intro c hc
    exact List.all_eq_true.mp this.1.1 c hc
  have hadj : ∀ r ∈ ranks, rankNoAdj r = true := by
    intro r hr
    have := hok r hr
    rw [rankOK, Bool.and_eq_true, Bool.and_eq_true] at this
    exact this.1.2
  have hw : ∀ r ∈ ranks, rankWidth r = 8 := by
    intro r hr
    have := hok r hr
    rw [rankOK, Bool.and_eq_true] at this
    exact beq_iff_eq.mp this.2
  have hlen8 : ∀ e ∈ ranks.map expandCore, e.length = 8 := by
    intro e he
    rcases List.mem_map.mp he with ⟨r, hr, rfl⟩
    rw [expandCore_length_rank r (hall r hr), hw r hr]
  have hflat : expand_fen (joinRanks ranks) = (ranks.map expandCore).flatten := by
    unfold expand_fen
    rw [expandCore_joinRanks]
    have : (ranks.map expandCore).flatten.length = 64 := by
      rw [flatten_length_blocks _ hlen8, List.length_map, h8]
    rw [List.take_of_length_le (by omega)]
  rw [hflat]
  unfold compress_fen
  rw [withSlashes_flatten _ hlen8,
    joinRanks_compress ranks (fun r hr => ⟨hall r hr, hadj r hr⟩)]

/-- C1: codec round trip for the board codec of src/chess/src/lib.rs.
For every 64-character expanded board (each character the filler '1' or a
piece letter) with no run of empty squares longer than 8,
`expand_fen (compress_fen board) = board`; and for every well-formed compact
board string (eight ranks of digits 1..8 and piece letters, runs written
maximally, each rank describing 8 squares, joined by '/'),
`compress_fen (expand_fen compact) = compact`. -/
theorem c1_codec_round_trip :
    (∀ b : List Char, b.length = 64 → (∀ c ∈ b, boardChar c = true) →
      runsOK b 0 = true → expand_fen (compress_fen b) = b) ∧
    (∀ ranks : List (List Char), ranks.length = 8 →
      (∀ r ∈ ranks, rankOK r = true) →
      compress_fen (expand_fen (joinRanks ranks)) = joinRanks ranks) := by
  constructor
  · intro b hlen hbc _
    rw [expand_compress_take b (fun c hc =>
      ⟨boardChar_tame (hbc c hc), boardChar_ne_slash (hbc c hc)⟩)]
    rw [← hlen, List.take_length]
  · intro ranks h8 hok
    exact compress_expand_wf ranks h8 hok

/-- Witness for C1, instantiated at the chess starting position in both its
expanded and compact forms. -/
theorem c1_codec_round_trip_witness :
    expand_fen (compress_fen
        ("rnbqkbnrpppppppp1111111P1111111P1111111P1111111PPPPPPPPPRNBQKBNR".toList)) =
      "rnbqkbnrpppppppp1111111P1111111P1111111P1111111PPPPPPPPPRNBQKBNR".toList ∧
    compress_fen (expand_fen (joinRanks ["rnbqkbnr".toList, "pppppppp".toList,
        "8".toList, "8".toList, "8".toList, "8".toList, "PPPPPPPP".toList,
        "RNBQKBNR".toList])) =
      joinRanks ["rnbqkbnr".toList, "pppppppp".toList, "8".toList, "8".toList,
        "8".toList, "8".toList, "PPPPPPPP".toList, "RNBQKBNR".toList] :=
  ⟨c1_codec_round_trip.1 _ (by decide) (by decide) (by decide),
   c1_codec_round_trip.2 _ (by decide) (by decide)⟩

/-- C10: `apply_move` bounds-checks only the source index.  When the expanded
board is shorter than `fromSq + 1` it returns the `InvalidMove` error; when
the source is in range but the destination is at or beyond the expanded
board's length, the destination `replace_range` is unguarded and panics
(modelled as `none`) instead of returning an error. -/
theorem c10_apply_move_source_only_bounds (fen : List Char) (m : ChessMove) :
    ((expand_fen fen).length < m.fromSq + 1 →
      apply_move fen m = some (.error .invalidMove)) ∧
    (m.fromSq < (expand_fen fen).length → (expand_fen fen).length ≤ m.toSq →
      apply_move fen m = none) := by
  constructor
  · intro h
    have hn : (expand_fen fen)[m.fromSq]? = none :=
      List.getElem?_eq_none_iff.mpr (by omega)
    simp only [apply_move, hn]
  · intro h1 h2
    cases hs : (expand_fen fen)[m.fromSq]? with
    | none =>
        have := List.getElem?_eq_none_iff.mp hs
        omega
    | some fc =>
        simp only [apply_move, hs]
        rw [if_neg (by rw [List.length_set]; omega)]

/-- Witness for C10: on the board "8" (which expands to 8 squares), a move
from square 10 is rejected with an error, while a move from square 0 to
square 9 panics. -/
theorem c10_apply_move_source_only_bounds_witness :
    (expand_fen ("8".toList)).length < 10 + 1 ∧
    apply_move ("8".toList) ⟨10, 0, none⟩ = some (.error .invalidMove) ∧
    apply_move ("8".toList) ⟨0, 9, none⟩ = none :=
  ⟨by decide,
   (c10_apply_move_source_only_bounds ("8".toList) ⟨10, 0, none⟩).1 (by decide),
   (c10_apply_move_source_only_bounds ("8".toList) ⟨0, 9, none⟩).2 (by decide) (by decide)⟩

/-- C8 (counterexample): the move text "z1a1" contains the malformed square
token "z1" — 'z' is beyond file 'h' — yet `parse_move` returns `Ok` with the
out-of-range index 81 rather than the `Malformed` (`InvalidMove`) error. -/
theorem c8_parse_move_counterexample :
    parse_move ("z1a1".toList) = some (.ok ⟨81, 56, none⟩) ∧
    parse_move ("z1a1".toList) ≠ some (.error .invalidMove) := by
  constructor
  · decide
  · decide

/-- C8 (amended): `parse_move` returns the `Malformed` (`InvalidMove`) error
exactly for move texts shorter than 4 characters.  A malformed square token
is never reported as an error: file letters at or beyond 'a' merely yield an
out-of-range index, and characters below 'a' after `u8` truncation,
non-digit rank characters, and rank digits above 8 panic (or wrap in release
builds), modelled as `none`. -/
theorem c8_parse_move_malformed_only_length (m : List Char) :
    (m.length < 4 → parse_move m = some (.error .invalidMove)) ∧
    (4 ≤ m.length → ∀ e, parse_move m ≠ some (.error e)) := by
  constructor
  · intro hlen
    match m with
    | [] => rfl
    | [_] => rfl
    | [_, _] => rfl
    | [_, _, _] => rfl
    | _ :: _ :: _ :: _ :: _ => simp at hlen; omega
  · intro hlen e
    match m with
    | [] => simp at hlen
    | [_] => simp at hlen
    | [_, _] => simp at hlen
    | [_, _, _] => simp at hlen
    | c0 :: c1 :: c2 :: c3 :: rest =>
        simp only [parse_move]
        cases hd1 : toDigit10 c1 with
        | none => cases hd3 : toDigit10 c3 <;> simp
        | some d1 =>
            cases hd3 : toDigit10 c3 with
            | none => simp
            | some d3 =>
                by_cases hg : c0.toNat % 256 < 97 ∨ c2.toNat % 256 < 97 ∨ 8 < d1 ∨ 8 < d3
                · simp [hg]
                · simp [hg]

/-- Witness for C8's amended statement, at a short text and at "z1a1". -/
theorem c8_parse_move_malformed_only_length_witness :
    parse_move ("a1".toList) = some (.error .invalidMove) ∧
    parse_move ("z1a1".toList) ≠ some (.error .invalidMove) :=
  ⟨(c8_parse_move_malformed_only_length ("a1".toList)).1 (by decide),
   (c8_parse_move_malformed_only_length ("z1a1".toList)).2 (by decide) .invalidMove⟩

/-- C5: mirror symmetry of the move indexer.  For every move text whose four
square characters are legal-shaped (files a..h, ranks 1..8), the two
coordinates formatted by `move_to_index m true` are 63 minus the
corresponding coordinates of `move_to_index m false`; in particular
`move_to_index "e2e4" false = "52,36"` and `move_to_index "e2e4" true =
"11,27"`. -/
theorem c5_move_index_mirror :
    (∀ (c0 c1 c2 c3 : Char) (rest : List Char),
      'a' ≤ c0 → c0 ≤ 'h' → '1' ≤ c1 → c1 ≤ '8' →
      'a' ≤ c2 → c2 ≤ 'h' → '1' ≤ c3 → c3 ≤ '8' →
      ∃ f t, f ≤ 63 ∧ t ≤ 63 ∧
        move_to_index (c0 :: c1 :: c2 :: c3 :: rest) false =
          some (.ok (fmt2 f ++ ',' :: fmt2 t)) ∧
        move_to_index (c0 :: c1 :: c2 :: c3 :: rest) true =
          some (.ok (fmt2 (63 - f) ++ ',' :: fmt2 (63 - t)))) ∧
    move_to_index ("e2e4".toList) false = some (.ok ("52,36".toList)) ∧
    move_to_index ("e2e4".toList) true = some (.ok ("11,27".toList)) := by
  refine ⟨?_, by decide, by decide⟩
  intro c0 c1 c2 c3 rest h0a h0h h11 h18 h2a h2h h31 h38
  have hb0l : 97 ≤ c0.toNat := char_le_toNat.mp h0a
  have hb0r : c0.toNat ≤ 104 := char_le_toNat.mp h0h
  have hb1l : 49 ≤ c1.toNat := char_le_toNat.mp h11
  have hb1r : c1.toNat ≤ 56 := char_le_toNat.mp h18
  have hb2l : 97 ≤ c2.toNat := char_le_toNat.mp h2a
  have hb2r : c2.toNat ≤ 104 := char_le_toNat.mp h2h
  have hb3l : 49 ≤ c3.toNat := char_le_toNat.mp h31
  have hb3r : c3.toNat ≤ 56 := char_le_toNat.mp h38
  have h48 : ('0' : Char).toNat = 48 := rfl
  have h57 : ('9' : Char).toNat = 57 := rfl
  have hm0 : c0.toNat % 256 = c0.toNat := Nat.mod_eq_of_lt (by omega)
  have hm2 : c2.toNat % 256 = c2.toNat := Nat.mod_eq_of_lt (by omega)
  have hd1 : toDigit10 c1 = some (digitVal c1) := by
    unfold toDigit10
    rw [if_pos ⟨char_le_toNat.mpr (by omega), char_le_toNat.mpr (by omega)⟩]
  have hd3 : toDigit10 c3 = some (digitVal c3) := by
    unfold toDigit10
    rw [if_pos ⟨char_le_toNat.mpr (by omega), char_le_toNat.mpr (by omega)⟩]
  have hdv1 : 1 ≤ digitVal c1 ∧ digitVal c1 ≤ 8 := by unfold digitVal; omega
  have hdv3 : 1 ≤ digitVal c3 ∧ digitVal c3 ≤ 8 := by unfold digitVal; omega
  refine ⟨(c0.toNat - 97) + (8 - digitVal c1) * 8,
    (c2.toNat - 97) + (8 - digitVal c3) * 8, by omega, by omega, ?_, ?_⟩
  · simp only [move_to_index, hd1, hd3]
    rw [if_neg (by omega)]
    simp only [Bool.false_eq_true, if_false, hm0, hm2]
  · simp only [move_to_index, hd1, hd3]
    rw [if_neg (by omega)]
    simp only [if_true]
    have hf : (Int.natAbs (((c0.toNat % 256 - 97 + (8 - digitVal c1) * 8 : Nat) : Int) - 63)) % 256 =
        63 - (c0.toNat - 97 + (8 - digitVal c1) * 8) := by
      rw [hm0]
      omega
    have ht : (Int.natAbs (((c2.toNat % 256 - 97 + (8 - digitVal c3) * 8 : Nat) : Int) - 63)) % 256 =
        63 - (c2.toNat - 97 + (8 - digitVal c3) * 8) := by
      rw [hm2]
      omega
    rw [hf, ht]

/-- Witness for C5 at the move "g1f3". -/
theorem c5_move_index_mirror_witness :
    ∃ f t, f ≤ 63 ∧ t ≤ 63 ∧
      move_to_index ("g1f3".toList) false = some (.ok (fmt2 f ++ ',' :: fmt2 t)) ∧
      move_to_index ("g1f3".toList) true =
        some (.ok (fmt2 (63 - f) ++ ',' :: fmt2 (63 - t))) :=
  c5_move_index_mirror.1 'g' '1' 'f' '3' [] (by decide) (by decide) (by decide)
    (by decide) (by decide) (by decide) (by decide) (by decide)

/-! Helper facts about mutated expanded boards, used for the applier
claims. -/

theorem char_ofNat_toNat {n : Nat} (h : n < 55296) : (Char.ofNat n).toNat = n := by
  unfold Char.ofNat
  rw [dif_pos (Or.inl h)]
  rfl

theorem tame_of_range {c : Char} (hl : 65 ≤ c.toNat) (hr : c.toNat ≤ 122) :
    tameChar c ∧ c ≠ '/' := by
  have hslash : c ≠ '/' := by
    rintro rfl
    simp at hl
  refine ⟨Or.inr ⟨hslash, ?_⟩, hslash⟩
  intro ⟨h1, h2⟩
  have h2' := char_le_toNat.mp h2
  have h56 : ('8' : Char).toNat = 56 := rfl
  omega

theorem alpha_toNat_range {c : Char} (h : c.isAlpha = true) :
    (65 ≤ c.toNat ∧ c.toNat ≤ 90) ∨ (97 ≤ c.toNat ∧ c.toNat ≤ 122) := by
  simp only [Char.isAlpha, Char.isUpper, Char.isLower, Bool.or_eq_true,
    Bool.and_eq_true, decide_eq_true_eq] at h
  rcases h with ⟨h1, h2⟩ | ⟨h1, h2⟩
  · exact Or.inl ⟨h1, h2⟩
  · exact Or.inr ⟨h1, h2⟩

theorem toUpper_alpha_range {c : Char} (h : c.isAlpha = true) :
    65 ≤ (c.toUpper).toNat ∧ (c.toUpper).toNat ≤ 122 := by
  have hval := alpha_toNat_range h
  unfold Char.toUpper
  by_cases hc : c.toNat ≥ 97 ∧ c.toNat ≤ 122
  · rw [if_pos hc, char_ofNat_toNat (by omega)]
    omega
  · rw [if_neg hc]
    omega

theorem toLower_alpha_range {c : Char} (h : c.isAlpha = true) :
    65 ≤ (c.toLower).toNat ∧ (c.toLower).toNat ≤ 122 := by
  have hval := alpha_toNat_range h
  unfold Char.toLower
  by_cases hc : c.toNat ≥ 65 ∧ c.toNat ≤ 90
  · rw [if_pos hc, char_ofNat_toNat (by omega)]
    omega
  · rw [if_neg hc]
    omega

/-- Every character of an expanded board is tame and not a separator. -/
theorem tame_expandCore (s : List Char) : ∀ c ∈ expandCore s, tameChar c ∧ c ≠ '/' := by
  intro c hc
  rcases List.mem_flatMap.mp hc with ⟨a, _, hca⟩
  unfold expandChar at hca
  by_cases hd : '1' ≤ a ∧ a ≤ '8'
  · rw [if_pos hd] at hca
    have := List.eq_of_mem_replicate hca
    subst this
    exact ⟨Or.inl rfl, by decide⟩
  · rw [if_neg hd] at hca
    by_cases hs : a = '/'
    · rw [if_pos hs] at hca
      exact absurd hca (List.not_mem_nil _)
    · rw [if_neg hs] at hca
      rcases hca with _ | ⟨_, h⟩
      · exact ⟨Or.inr ⟨hs, hd⟩, hs⟩
      · exact absurd h (List.not_mem_nil _)

theorem tame_expand_fen (s : List Char) : ∀ c ∈ expand_fen s, tameChar c ∧ c ≠ '/' :=
  fun c hc => tame_expandCore s c (List.mem_of_mem_take hc)

/-- Round trip on a mutated expanded board of at most 64 characters. -/
theorem expand_compress_id (x : List Char) (h : ∀ c ∈ x, tameChar c ∧ c ≠ '/')
    (hlen : x.length ≤ 64) : expand_fen (compress_fen x) = x := by
  rw [expand_compress_take x h, List.take_of_length_le hlen]

theorem set_getElem?_self : ∀ (l : List Char) (i : Nat) (c : Char),
    l[i]? = some c → l.set i c = l
  | [], i, c, h => by simp at h
  | a :: l, 0, c, h => by
      rw [List.getElem?_cons_zero] at h
      injection h with h
      rw [List.set_cons_zero, h]
  | a :: l, i + 1, c, h => by
      rw [List.getElem?_cons_succ] at h
      rw [List.set_cons_succ, set_getElem?_self l i c h]

theorem expand_fen_len_le (s : List Char) : (expand_fen s).length ≤ 64 :=
  List.length_take_le 64 (expandCore s)

/-- Characters of the board mutated by `apply_move` stay tame when the written
piece is tame. -/
theorem tame_set {l : List Char} {i : Nat} {d : Char}
    (hl : ∀ c ∈ l, tameChar c ∧ c ≠ '/') (hd : tameChar d ∧ d ≠ '/') :
    ∀ c ∈ l.set i d, tameChar c ∧ c ≠ '/' := by
  intro c hc
  rcases List.mem_or_eq_of_mem_set hc with h | h
  · exact hl c h
  · exact h ▸ hd

/-- C6 (counterexample): applying a capture and then its inverse does not
restore the board — the captured piece is gone.  On
"8/8/8/8/8/8/8/r6R", the move h1a1 (63 → 56) captures the rook on a1; the
inverse move returns the white rook but leaves a1's original occupant
erased, producing "8/8/8/8/8/8/8/7R" ≠ the original board. -/
theorem c6_apply_move_inverse_counterexample :
    apply_move ("8/8/8/8/8/8/8/r6R".toList) ⟨63, 56, none⟩ =
      some (.ok ("8/8/8/8/8/8/8/R7".toList, 'R')) ∧
    apply_move ("8/8/8/8/8/8/8/R7".toList) ⟨56, 63, none⟩ =
      some (.ok ("8/8/8/8/8/8/8/7R".toList, 'R')) ∧
    "8/8/8/8/8/8/8/7R".toList ≠ "8/8/8/8/8/8/8/r6R".toList :=
  ⟨by decide, by decide, by decide⟩

/-- C6 (amended): for every canonical compact board (one that the codec
round-trips) and every promotion-free move whose application succeeds and
whose destination square is empty before the move, applying the move and
then its inverse (from and to swapped, no promotion) restores the original
compact board and returns the same moved piece. -/
theorem c6_apply_move_inverse (fen : List Char) (m : ChessMove) (b1 : List Char)
    (pc : Char) (hpromo : m.promotion = none)
    (hcanon : compress_fen (expand_fen fen) = fen)
    (happ : apply_move fen m = some (.ok (b1, pc)))
    (hdest : (expand_fen fen)[m.toSq]? = some '1') :
    apply_move b1 ⟨m.toSq, m.fromSq, none⟩ = some (.ok (fen, pc)) := by
  cases hfc : (expand_fen fen)[m.fromSq]? with
  | none => simp [apply_move, hfc] at happ
  | some fc =>
      simp only [apply_move, hfc, hpromo] at happ
      by_cases hlt : m.toSq < ((expand_fen fen).set m.fromSq '1').length
      · rw [if_pos hlt] at happ
        simp only [Option.some.injEq, Except.ok.injEq, Prod.mk.injEq] at happ
        obtain ⟨hb1, hpc⟩ := happ
        subst hpc
        have hfromlt : m.fromSq < (expand_fen fen).length := by
          by_contra hc
          rw [List.getElem?_eq_none_iff.mpr (by omega)] at hfc
          cases hfc
        have htolt : m.toSq < (expand_fen fen).length := by
          rw [List.length_set] at hlt
          exact hlt
        set e := expand_fen fen with he
        set e2 := (e.set m.fromSq '1').set m.toSq fc with he2
        have htame2 : ∀ c ∈ e2, tameChar c ∧ c ≠ '/' := by
          apply tame_set
          · apply tame_set (tame_expand_fen fen)
            exact ⟨Or.inl rfl, by decide⟩
          · exact tame_expand_fen fen fc (List.getElem?_mem hfc)
        have hlen2 : e2.length ≤ 64 := by
          rw [he2, List.length_set, List.length_set]
          exact expand_fen_len_le fen
        have hexb1 : expand_fen b1 = e2 := by
          rw [← hb1, expand_compress_id e2 htame2 hlen2]
        have hget2 : e2[m.toSq]? = some fc := by
          rw [he2]
          exact List.getElem?_set_self (by rw [List.length_set]; exact htolt)
        simp only [apply_move, hexb1, hget2]
        rw [if_pos (by rw [List.length_set, he2, List.length_set, List.length_set]; exact hfromlt)]
        have hstep1 : e2.set m.toSq '1' = e.set m.fromSq '1' := by
          rw [he2, List.set_set]
          apply set_getElem?_self
          by_cases hft : m.fromSq = m.toSq
          · rw [← hft]
            rw [List.getElem?_set_self (hft ▸ htolt)]
          · rw [List.getElem?_set_ne hft]
            exact hdest
        have hstep2 : (e2.set m.toSq '1').set m.fromSq fc = e := by
          rw [hstep1, List.set_set]
          exact set_getElem?_self e m.fromSq fc hfc
        rw [hstep2, hcanon]
      · rw [if_neg hlt] at happ
        simp at happ

/-- Witness for C6: the quiet pawn push a7a6 on "8/P7/8/8/8/8/8/8" and its
inverse. -/
theorem c6_apply_move_inverse_witness :
    apply_move ("8/8/P7/8/8/8/8/8".toList) ⟨16, 8, none⟩ =
      some (.ok ("8/P7/8/8/8/8/8/8".toList, 'P')) := by
  have h := c6_apply_move_inverse ("8/P7/8/8/8/8/8/8".toList) ⟨8, 16, none⟩
    ("8/8/P7/8/8/8/8/8".toList) 'P' (by decide) (by decide) (by decide) (by decide)
  exact h

/-- C7: promotion handling in `apply_move`.  When the move carries a
promotion letter, the destination square of the resulting board receives
that letter cased to match the pre-move source piece, and the returned piece
is the pre-move source piece, not the promoted one; in particular, board
"8/P7/8/8/8/8/8/8" with move "a7a8q" yields board "Q7/8/8/8/8/8/8/8" and
returned piece 'P'. -/
theorem c7_apply_move_promotion :
    (∀ (fen : List Char) (m : ChessMove) (p : Char) (b1 : List Char) (pc : Char),
      m.promotion = some p → p.isAlpha = true →
      apply_move fen m = some (.ok (b1, pc)) →
      (expand_fen fen)[m.fromSq]? = some pc ∧
      (expand_fen b1)[m.toSq]? =
        some (if pc.isUpper then p.toUpper else p.toLower)) ∧
    parse_move ("a7a8q".toList) = some (.ok ⟨8, 0, some 'q'⟩) ∧
    apply_move ("8/P7/8/8/8/8/8/8".toList) ⟨8, 0, some 'q'⟩ =
      some (.ok ("Q7/8/8/8/8/8/8/8".toList, 'P')) := by
  refine ⟨?_, by decide, by decide⟩
  intro fen m p b1 pc hpromo halpha happ
  cases hfc : (expand_fen fen)[m.fromSq]? with
  | none => simp [apply_move, hfc] at happ
  | some fc =>
      simp only [apply_move, hfc, hpromo] at happ
      by_cases hlt : m.toSq < ((expand_fen fen).set m.fromSq '1').length
      · rw [if_pos hlt] at happ
        simp only [Option.some.injEq, Except.ok.injEq, Prod.mk.injEq] at happ
        obtain ⟨hb1, hpc⟩ := happ
        subst hpc
        refine ⟨rfl, ?_⟩
        have htolt : m.toSq < (expand_fen fen).length := by
          rw [List.length_set] at hlt
          exact hlt
        set e := expand_fen fen with he
        set tp := if fc.isUpper then p.toUpper else p.toLower with htp
        have htptame : tameChar tp ∧ tp ≠ '/' := by
          rw [htp]
          by_cases hu : fc.isUpper = true
          · rw [if_pos hu]
            have := toUpper_alpha_range halpha
            exact tame_of_range this.1 this.2
          · rw [if_neg hu]
            have := toLower_alpha_range halpha
            exact tame_of_range this.1 this.2
        set e2 := (e.set m.fromSq '1').set m.toSq tp with he2
        have htame2 : ∀ c ∈ e2, tameChar c ∧ c ≠ '/' := by
          apply tame_set
          · apply tame_set (tame_expand_fen fen)
            exact ⟨Or.inl rfl, by decide⟩
          · exact htptame
        have hlen2 : e2.length ≤ 64 := by
          rw [he2, List.length_set, List.length_set]
          exact expand_fen_len_le fen
        have hexb1 : expand_fen b1 = e2 := by
          rw [← hb1, expand_compress_id e2 htame2 hlen2]
        rw [hexb1, he2]
        exact List.getElem?_set_self (by rw [List.length_set]; exact htolt)
      · rw [if_neg hlt] at happ
        simp at happ

/-- Witness for C7 at the promotion scenario a7a8q. -/
theorem c7_apply_move_promotion_witness :
    (expand_fen ("8/P7/8/8/8/8/8/8".toList))[8]? = some 'P' ∧
    (expand_fen ("Q7/8/8/8/8/8/8/8".toList))[0]? =
      some (if ('P').isUpper then ('q').toUpper else ('q').toLower) :=
  c7_apply_move_promotion.1 ("8/P7/8/8/8/8/8/8".toList) ⟨8, 0, some 'q'⟩ 'q'
    ("Q7/8/8/8/8/8/8/8".toList) 'P' rfl (by decide) (by decide)

theorem ite_prop_or (p : Prop) [Decidable p] (x : Bool) :
    (if p then true else x) = (decide p || x) := by
  by_cases hp : p <;> simp [hp]

theorem any_eq_find?_isSome (l : List Char) (f : Char → Bool) :
    l.any f = (l.find? f).isSome := by
  induction l with
  | nil => rfl
  | cons a t ih =>
      rw [List.any_cons, List.find?_cons]
      cases hf : f a <;> simp [hf, ih]

/-- C9 (amended): `should_skip_puzzle` is the disjunction of nine independent
checks, evaluated short-circuiting in the order (1) empty move list, (2)
move count above max, (3) move count below min, (4) rating above max, (5)
rating below min, (6) excluded piece letter present — an exact (not
case-insensitive) character match of the configured letters against the
alphabetic characters of the raw FEN — (7) required theme tag not a
substring of any theme, (8) id before the optional lower bound, (9) id after
the optional upper bound; `skip_reason` reports the first failing check with
the required-theme reason checked BEFORE the excluded-piece reason, unlike
`should_skip_puzzle`'s order. -/
theorem c9_filter_order (p : Puzzle) (c : Config) :
    should_skip_puzzle p c =
      (chkEmpty p c || chkMovesHi p c || chkMovesLo p c || chkRatingHi p c ||
       chkRatingLo p c || chkExcluded p c || chkTheme p c || chkIdLo p c ||
       chkIdHi p c) ∧
    skip_reason p c = firstMsgList
      [(chkEmpty p c, msgEmpty p c), (chkMovesHi p c, msgMovesHi p c),
       (chkMovesLo p c, msgMovesLo p c), (chkRatingHi p c, msgRatingHi p c),
       (chkRatingLo p c, msgRatingLo p c), (chkTheme p c, msgTheme p c),
       (chkExcluded p c, msgExcluded p c), (chkIdLo p c, msgIdLo p c),
       (chkIdHi p c, msgIdHi p c)]
      ("unknown reason (this shouldn't happen)".toList) := by
  constructor
  · unfold should_skip_puzzle chkEmpty chkMovesHi chkMovesLo chkRatingHi
      chkRatingLo chkExcluded chkTheme chkIdLo chkIdHi
    rw [ite_prop_or, ite_prop_or, ite_prop_or, ite_prop_or, ite_prop_or,
      ite_prop_or, ite_prop_or, ite_prop_or, ite_prop_or]
    simp only [Bool.decide_coe, Bool.or_false, Bool.or_assoc]
  · unfold skip_reason skip_reason_theme skip_reason_excl skip_reason_id
      firstMsgList chkEmpty chkMovesHi chkMovesLo chkRatingHi chkRatingLo
      chkExcluded chkTheme chkIdLo chkIdHi msgEmpty msgMovesHi msgMovesLo
      msgRatingHi msgRatingLo msgTheme msgExcluded msgIdLo msgIdHi
    rw [any_eq_find?_isSome]
    cases hth : c.theme_tag <;>
      cases hfind : c.exclude_pieces.find? (fun q => (fenPieceChars p).contains q) <;>
        simp [hth, hfind, firstMsgList]

/-- C9 (counterexample): the claim's diagnostic priority — excluded piece
(4) strictly before required theme (5) — does not match `skip_reason`, which
checks the theme first: on a puzzle failing both checks, `skip_reason`
reports the missing theme where the claimed order reports the excluded
piece.  Moreover the excluded-piece scan is not case-insensitive: a FEN
holding only 'K' is not skipped when exclude_pieces is ['k']. -/
theorem c9_filter_order_counterexample :
    should_skip_puzzle puzzleBothFail cfgBothFail = true ∧
    skip_reason puzzleBothFail cfgBothFail =
      "missing required theme 'fork' (has: pin)".toList ∧
    skipReasonClaimOrder puzzleBothFail cfgBothFail =
      "contains excluded piece 'k'".toList ∧
    skip_reason puzzleBothFail cfgBothFail ≠
      skipReasonClaimOrder puzzleBothFail cfgBothFail ∧
    should_skip_puzzle puzzleUpperOnly cfgUpperOnly = false :=
  ⟨by decide, by decide, by decide, by decide, by decide⟩

theorem hasName_rmName_self (s : Sink) (n : List Char) :
    hasName (rmName s n) n = false := by
  induction s with
  | nil => rfl
  | cons e t ih =>
      by_cases he : e.1 = n
      · have hb : (e.1 == n) = true := beq_iff_eq.mpr he
        simpa [rmName, hasName, List.filter_cons, hb] using ih
      · have hb : (e.1 == n) = false := beq_eq_false_iff_ne.mpr he
        simpa [rmName, hasName, List.filter_cons, hb] using ih

theorem hasName_rmName_ne (s : Sink) (m n : List Char) (h : m ≠ n) :
    hasName (rmName s m) n = hasName s n := by
  induction s with
  | nil => rfl
  | cons e t ih =>
      by_cases he : e.1 = m
      · have hb : (e.1 == m) = true := beq_iff_eq.mpr he
        have hn : (e.1 == n) = false := beq_eq_false_iff_ne.mpr (he ▸ h)
        simpa [rmName, hasName, List.filter_cons, hb, hn] using ih
      · have hb : (e.1 == m) = false := beq_eq_false_iff_ne.mpr he
        simp only [rmName, hasName, List.filter_cons, hb, Bool.not_false, if_pos,
          List.any_cons] at ih ⊢
        rw [ih]

theorem hasName_writeFile (s : Sink) (m content n : List Char) :
    hasName (writeFile s m content) n = (n == m || hasName s n) := by
  by_cases h : m = n
  · subst h
    simp [writeFile, hasName]
  · have h1 : (m == n) = false := beq_eq_false_iff_ne.mpr h
    have h2 : (n == m) = false := beq_eq_false_iff_ne.mpr (fun hx => h hx.symm)
    rw [writeFile, hasName, List.any_cons, h1, h2, Bool.false_or, Bool.false_or]
    exact hasName_rmName_ne s m n h

/-- The emission pass never deletes a file: any name present when it starts
is present when it finishes, on every non-panicking outcome. -/
theorem emitLoop_mono (p : Puzzle) (c : Config) :
    ∀ (ms : List (List Char)) (fen : List Char) (i : Nat) (pc : Char)
      (sink sink' : Sink) (r : Except ChessError Char) (n : List Char),
      emitLoop p c fen ms i pc sink = some (sink', r) →
      hasName sink n = true → hasName sink' n = true
  | [], fen, i, pc, sink, sink', r, n, h, hn => by
      rw [emitLoop] at h
      injection h with h
      injection h with h1 _
      rw [← h1]
      exact hn
  | mv :: rest, fen, i, pc, sink, sink', r, n, h, hn => by
      rw [emitLoop] at h
      cases hp : parse_move mv with
      | none => rw [hp] at h; cases h
      | some rp =>
          rw [hp] at h
          cases rp with
          | error e =>
              simp only at h
              injection h with h
              injection h with h1 _
              rw [← h1]
              exact hn
          | ok cm =>
              simp only at h
              cases ha : apply_move fen cm with
              | none => rw [ha] at h; cases h
              | some ra =>
                  rw [ha] at h
                  cases ra with
                  | error e =>
                      simp only at h
                      injection h with h
                      injection h with h1 _
                      rw [← h1]
                      exact hn
                  | ok nfp =>
                      obtain ⟨nf, piece⟩ := nfp
                      simp only at h
                      cases hmi : move_to_index mv (p.first_move == 'w') with
                      | none => rw [hmi] at h; cases h
                      | some rmi =>
                          rw [hmi] at h
                          cases rmi with
                          | error e =>
                              simp only at h
                              injection h with h
                              injection h with h1 _
                              rw [← h1]
                              exact hn
                          | ok imove =>
                              simp only at h
                              refine emitLoop_mono p c rest nf (i + 1) piece _ sink' r n h ?_
                              rw [hasName_writeFile]
                              rw [hn]
                              simp

/-- Inversion of one successful emission step. -/
theorem emitLoop_cons_ok (p : Puzzle) (c : Config) (fen mv : List Char)
    (rest : List (List Char)) (i : Nat) (pc : Char) (sink sink' : Sink) (piece : Char)
    (h : emitLoop p c fen (mv :: rest) i pc sink = some (sink', .ok piece)) :
    ∃ cm nf pc1 imove,
      parse_move mv = some (.ok cm) ∧
      apply_move fen cm = some (.ok (nf, pc1)) ∧
      move_to_index mv (p.first_move == 'w') = some (.ok imove) ∧
      emitLoop p c nf rest (i + 1) pc1
        (writeFile sink (fname p c (i + 1))
          (p.id ++ ',' :: expand_fen (if p.first_move == 'w' then reverse_fen nf else nf) ++
            ',' :: imove ++ ',' :: natStr (i + 1) ++ ',' :: natStr p.moves.length)) =
        some (sink', .ok piece) := by
  rw [emitLoop] at h
  cases hp : parse_move mv with
  | none => rw [hp] at h; cases h
  | some rp =>
      rw [hp] at h
      cases rp with
      | error e =>
          simp only at h
          injection h with h
          injection h with _ h2
          cases h2
      | ok cm =>
          simp only at h
          cases ha : apply_move fen cm with
          | none => rw [ha] at h; cases h
          | some ra =>
              rw [ha] at h
              cases ra with
              | error e =>
                  simp only at h
                  injection h with h
                  injection h with _ h2
                  cases h2
              | ok nfp =>
                  obtain ⟨nf, pc1⟩ := nfp
                  simp only at h
                  cases hmi : move_to_index mv (p.first_move == 'w') with
                  | none => rw [hmi] at h; cases h
                  | some rmi =>
                      rw [hmi] at h
                      cases rmi with
                      | error e =>
                          simp only at h
                          injection h with h
                          injection h with _ h2
                          cases h2
                      | ok imove =>
                          simp only at h
                          exact ⟨cm, nf, pc1, imove, rfl, ha, rfl, h⟩

/-- After a successful emission pass starting at index `i`, every file
numbered `i+1 .. i + ms.length` exists on the sink. -/
theorem emitLoop_writes (p : Puzzle) (c : Config) :
    ∀ (ms : List (List Char)) (fen : List Char) (i : Nat) (pc : Char)
      (sink sink' : Sink) (piece : Char),
      emitLoop p c fen ms i pc sink = some (sink', .ok piece) →
      ∀ j, i < j → j ≤ i + ms.length → hasName sink' (fname p c j) = true
  | [], fen, i, pc, sink, sink', piece, h, j, hj1, hj2 => by
      exact absurd hj1 (by simp at hj2; omega)
  | mv :: rest, fen, i, pc, sink, sink', piece, h, j, hj1, hj2 => by
      obtain ⟨cm, nf, pc1, imove, hp, ha, hmi, hrec⟩ :=
        emitLoop_cons_ok p c fen mv rest i pc sink sink' piece h
      by_cases hji : j = i + 1
      · subst hji
        refine emitLoop_mono p c rest nf (i + 1) pc1 _ sink' _ _ hrec ?_
        rw [hasName_writeFile]
        simp
      · refine emitLoop_writes p c rest nf (i + 1) pc1 _ sink' piece hrec j (by omega) ?_
        simp only [List.length_cons] at hj2
        omega

/-- The final moved piece returned by the emission pass agrees with the pure
replay `lastMovedAux`. -/
theorem emitLoop_lastMoved (p : Puzzle) (c : Config) :
    ∀ (ms : List (List Char)) (fen : List Char) (i : Nat) (pc : Char)
      (sink sink' : Sink) (piece : Char),
      emitLoop p c fen ms i pc sink = some (sink', .ok piece) →
      lastMovedAux fen ms pc = some (.ok piece)
  | [], fen, i, pc, sink, sink', piece, h => by
      rw [emitLoop] at h
      injection h with h
      injection h with _ h2
      injection h2 with h2
      rw [lastMovedAux, h2]
  | mv :: rest, fen, i, pc, sink, sink', piece, h => by
      obtain ⟨cm, nf, pc1, imove, hp, ha, hmi, hrec⟩ :=
        emitLoop_cons_ok p c fen mv rest i pc sink sink' piece h
      rw [lastMovedAux]
      rw [hp]
      simp only
      rw [ha]
      simp only
      exact emitLoop_lastMoved p c rest nf (i + 1) pc1 _ sink' piece hrec

/-- The rollback loop never re-creates a file. -/
theorem removeLoop_mono :
    ∀ (names : List (List Char)) (s s' : Sink) (n : List Char),
      removeLoop s names = (s', true) → hasName s n = false → hasName s' n = false
  | [], s, s', n, h, hn => by
      rw [removeLoop] at h
      injection h with h1 _
      rw [← h1]
      exact hn
  | m :: rest, s, s', n, h, hn => by
      rw [removeLoop] at h
      cases hr : removeFile s m with
      | none =>
          rw [hr] at h
          injection h with _ h2
          cases h2
      | some s2 =>
          rw [hr] at h
          refine removeLoop_mono rest s2 s' n h ?_
          unfold removeFile at hr
          by_cases hh : hasName s m = true
          · rw [if_pos hh] at hr
            injection hr with hr
            rw [← hr]
            by_cases hmn : m = n
            · subst hmn
              exact hasName_rmName_self s m
            · rw [hasName_rmName_ne s m n hmn]
              exact hn
          · rw [if_neg hh] at hr
            cases hr

/-- After a fully successful rollback loop, none of the removed names
remain. -/
theorem removeLoop_removed :
    ∀ (names : List (List Char)) (s s' : Sink),
      removeLoop s names = (s', true) → ∀ n ∈ names, hasName s' n = false
  | [], _, _, _, n, hn => absurd hn (List.not_mem_nil _)
  | m :: rest, s, s', h, n, hn => by
      rw [removeLoop] at h
      cases hr : removeFile s m with
      | none =>
          rw [hr] at h
          injection h with _ h2
          cases h2
      | some s2 =>
          rw [hr] at h
          cases hn with
          | head =>
              refine removeLoop_mono rest s2 s' m h ?_
              unfold removeFile at hr
              by_cases hh : hasName s m = true
              · rw [if_pos hh] at hr
                injection hr with hr
                rw [← hr]
                exact hasName_rmName_self s m
              · rw [if_neg hh] at hr
                cases hr
          | tail _ hn => exact removeLoop_removed rest s2 s' h n hn

/-- C2: trailing-piece rollback is atomic.  For every puzzle whose
processing returns normally (it reached and completed emission), if the
lowercased pre-move piece of the final move is in the configured
last-move-pieces set then all N of the puzzle's move-record files are on the
sink afterwards, and if it is not then none of them are — never a partial
subset. -/
theorem c2_rollback_atomic (p : Puzzle) (c : Config) (sink sink' : Sink) (n : Nat)
    (pc : Char) (hrun : process_puzzle p c sink = some (sink', .ok n))
    (hlast : lastMovedPiece p = some (.ok pc)) :
    (c.last_move_pieces.contains pc.toLower = true →
      ∀ j, 1 ≤ j → j ≤ p.moves.length → hasName sink' (fname p c j) = true) ∧
    (c.last_move_pieces.contains pc.toLower = false →
      ∀ j, 1 ≤ j → j ≤ p.moves.length → hasName sink' (fname p c j) = false) := by
  unfold process_puzzle at hrun
  unfold lastMovedPiece at hlast
  cases hh : (splitWs p.fen).head? with
  | none => rw [hh] at hrun; cases hrun
  | some fen0 =>
      rw [hh] at hrun hlast
      simp only at hrun hlast
      cases hv : validateLoop fen0 p.moves with
      | none => rw [hv] at hrun; cases hrun
      | some rv =>
          rw [hv] at hrun
          cases rv with
          | error e =>
              simp only at hrun
              injection hrun with hrun
              injection hrun with _ h2
              cases h2
          | ok _ =>
              simp only at hrun
              cases he : emitLoop p c fen0 p.moves 0 ' ' sink with
              | none => rw [he] at hrun; cases hrun
              | some rse =>
                  obtain ⟨sink1, re⟩ := rse
                  rw [he] at hrun
                  cases re with
                  | error e =>
                      simp only at hrun
                      injection hrun with hrun
                      injection hrun with _ h2
                      cases h2
                  | ok piece =>
                      simp only at hrun
                      have hlm := emitLoop_lastMoved p c p.moves fen0 0 ' ' sink sink1 piece he
                      rw [hlm] at hlast
                      injection hlast with hlast
                      injection hlast with hlast
                      subst hlast
                      by_cases hcont : c.last_move_pieces.contains piece.toLower = true
                      · rw [if_pos hcont] at hrun
                        injection hrun with hrun
                        injection hrun with h1 _
                        subst h1
                        constructor
                        · intro _ j hj1 hj2
                          exact emitLoop_writes p c p.moves fen0 0 ' ' sink sink1 piece he j
                            (by omega) (by omega)
                        · intro hfalse
                          rw [hcont] at hfalse
                          cases hfalse
                      · rw [if_neg hcont] at hrun
                        rw [Bool.not_eq_true] at hcont
                        cases hrl : removeLoop sink1 (fnames p c p.moves.length) with
                        | mk s2 b =>
                            rw [hrl] at hrun
                            cases b with
                            | false =>
                                simp only at hrun
                                injection hrun with hrun
                                injection hrun with _ h2
                                cases h2
                            | true =>
                                simp only at hrun
                                injection hrun with hrun
                                injection hrun with h1 _
                                subst h1
                                constructor
                                · intro htrue
                                  rw [hcont] at htrue
                                  cases htrue
                                · intro _ j hj1 hj2
                                  refine removeLoop_removed _ sink1 s2 hrl _ ?_
                                  unfold fnames
                                  refine List.mem_map.mpr ⟨j - 1, List.mem_range.mpr (by omega), ?_⟩
                                  congr 1
                                  omega

/-- Witness for C2: processing the rollback puzzle from an empty sink
returns normally, and its single emitted record is gone afterwards. -/
theorem c2_rollback_atomic_witness :
    hasName [] (fname puzzleRollback cfgRollback 1) = false :=
  (c2_rollback_atomic puzzleRollback cfgRollback [] [] 1 'P' (by decide) (by decide)).2
    (by decide) 1 (by decide) (by decide)

theorem packGroup_length :
    ∀ (g : List (List Char)) (acc out : List Nat),
      packGroup g acc = some out → out.length = acc.length + g.length * ROW_SIZE
  | [], acc, out, h => by
      rw [packGroup] at h
      injection h with h
      rw [← h]
      simp
  | f :: rest, acc, out, h => by
      rw [packGroup] at h
      by_cases ht : ROW_SIZE < (trimEnd f).length
      · rw [if_pos ht] at h
        cases h
      · rw [if_neg ht] at h
        rw [packGroup_length rest _ out h]
        simp only [List.length_append, List.length_replicate, charBytes,
          List.length_map, List.length_cons]
        simp only [ROW_SIZE] at ht ⊢
        omega

theorem packGroups_bounded :
    ∀ (groups : List (List (List Char))) (acc out : List Nat),
      packGroups groups acc = some out → acc.length ≤ MAX_ROM_DATA_SIZE →
      out.length ≤ MAX_ROM_DATA_SIZE
  | [], acc, out, h, hb => by
      rw [packGroups] at h
      injection h with h
      rw [← h]
      exact hb
  | g :: rest, acc, out, h, hb => by
      rw [packGroups] at h
      by_cases hc : MAX_ROM_DATA_SIZE < acc.length + g.length * ROW_SIZE
      · rw [if_pos hc] at h
        injection h with h
        rw [← h]
        exact hb
      · rw [if_neg hc] at h
        cases hg : packGroup g acc with
        | none => rw [hg] at h; cases h
        | some acc2 =>
            rw [hg] at h
            refine packGroups_bounded rest acc2 out h ?_
            rw [packGroup_length g acc acc2 hg]
            omega

/-- The packer packs exactly a prefix of the groups; when it stopped early,
the first unpacked group would not have fit. -/
theorem packGroups_prefix :
    ∀ (groups : List (List (List Char))) (acc out : List Nat),
      packGroups groups acc = some out →
      ∃ k, k ≤ groups.length ∧ packGroups (groups.take k) acc = some out ∧
        (∀ g gs, groups.drop k = g :: gs →
          MAX_ROM_DATA_SIZE < out.length + g.length * ROW_SIZE)
  | [], acc, out, h =>
      ⟨0, Nat.le_refl 0, by simpa using h, fun g gs hg => by cases hg⟩
  | g :: rest, acc, out, h => by
      rw [packGroups] at h
      by_cases hc : MAX_ROM_DATA_SIZE < acc.length + g.length * ROW_SIZE
      · rw [if_pos hc] at h
        injection h with h
        refine ⟨0, by omega, ?_, ?_⟩
        · rw [List.take_zero, packGroups, h]
        · intro g2 gs hg
          rw [List.drop_zero] at hg
          injection hg with hg1 _
          subst hg1
          rw [← h]
          exact hc
      · rw [if_neg hc] at h
        cases hg : packGroup g acc with
        | none => rw [hg] at h; cases h
        | some acc2 =>
            rw [hg] at h
            obtain ⟨k, hk, hpk, hcut⟩ := packGroups_prefix rest acc2 out h
            refine ⟨k + 1, by simp only [List.length_cons]; omega, ?_, ?_⟩
            · rw [List.take_succ_cons, packGroups, if_neg hc, hg]
              exact hpk
            · intro g2 gs hgd
              rw [List.drop_succ_cons] at hgd
              exact hcut g2 gs hgd

theorem configSector_length (rc : Nat) :
    (configSector rc).length = CONFIG_SECTOR_SIZE := by
  rw [configSector]
  simp only [List.length_append, List.length_replicate, uleBytes4,
    List.length_cons, List.length_nil, CONFIG_SECTOR_SIZE]

/-- C4: capacity monotonicity of the ROM assembler.  On every successful
run, the packed data is at most `FLASH_SIZE - 4096` bytes (the packer stops
before the first whole puzzle group whose `record_count * 96` bytes would
exceed the remaining data-region capacity, dropping it and everything after
it), and the written image is exactly `FLASH_SIZE = 16777216` bytes: the
data region zero-padded to `FLASH_SIZE - 4096` followed by the 4096-byte
configuration sector. -/
theorem c4_capacity_monotone (rowCount : Nat) (groups : List (List (List Char)))
    (h : (generate_rom rowCount groups).isSome = true) :
    ∃ data k,
      packGroups groups [] = some data ∧
      data.length ≤ MAX_ROM_DATA_SIZE ∧
      generate_rom rowCount groups =
        some ((data ++ List.replicate (MAX_ROM_DATA_SIZE - data.length) 0) ++
          configSector rowCount) ∧
      ((data ++ List.replicate (MAX_ROM_DATA_SIZE - data.length) 0) ++
        configSector rowCount).length = FLASH_SIZE ∧
      k ≤ groups.length ∧ packGroups (groups.take k) [] = some data ∧
      (∀ g gs, groups.drop k = g :: gs →
        MAX_ROM_DATA_SIZE < data.length + g.length * ROW_SIZE) := by
  cases hp : packGroups groups [] with
  | none => rw [generate_rom, hp] at h; cases h
  | some data =>
      have hb := packGroups_bounded groups [] data hp (by simp [MAX_ROM_DATA_SIZE])
      obtain ⟨k, hk, hpk, hcut⟩ := packGroups_prefix groups [] data hp
      refine ⟨data, k, rfl, hb, by rw [generate_rom, hp], ?_, hk, hpk, hcut⟩
      rw [List.length_append, List.length_append, List.length_replicate,
        configSector_length]
      unfold MAX_ROM_DATA_SIZE FLASH_SIZE CONFIG_SECTOR_SIZE at *
      omega

/-- Witness for C4 at an empty run. -/
theorem c4_capacity_monotone_witness :
    ∃ data k,
      packGroups [] [] = some data ∧
      data.length ≤ MAX_ROM_DATA_SIZE ∧
      generate_rom 0 [] =
        some ((data ++ List.replicate (MAX_ROM_DATA_SIZE - data.length) 0) ++
          configSector 0) ∧
      ((data ++ List.replicate (MAX_ROM_DATA_SIZE - data.length) 0) ++
        configSector 0).length = FLASH_SIZE ∧
      k ≤ ([] : List (List (List Char))).length ∧
      packGroups (([] : List (List (List Char))).take k) [] = some data ∧
      (∀ g gs, ([] : List (List (List Char))).drop k = g :: gs →
        MAX_ROM_DATA_SIZE < data.length + g.length * ROW_SIZE) :=
  c4_capacity_monotone 0 [] (by decide)

theorem take4_append (u v : List Nat) (h : u.length = 4) : (u ++ v).take 4 = u := by
  rw [← h, List.take_left]

theorem drop4_append (u v : List Nat) (h : u.length = 4) : (u ++ v).drop 4 = v := by
  rw [← h, List.drop_left]

/-- C3 (amended): the configuration sector is computed from the `row_count`
argument alone — the run-wide page counter, which counts the move records of
every successfully processed puzzle, including puzzles later rolled back by
the trailing-piece rule — independently of what was packed into the data
region: its bytes at offsets 4..8 are the little-endian `row_count`
(truncated to `u32`) and at offsets 8..12 the little-endian
`row_count * 96`. -/
theorem c3_header_fields (rowCount : Nat) (groups : List (List (List Char)))
    (h : (generate_rom rowCount groups).isSome = true) :
    ∃ data,
      generate_rom rowCount groups =
        some ((data ++ List.replicate (MAX_ROM_DATA_SIZE - data.length) 0) ++
          configSector rowCount) ∧
      (configSector rowCount).take 4 = [0x19, 0x17, 0x13, 0x11] ∧
      ((configSector rowCount).drop 4).take 4 = uleBytes4 rowCount ∧
      ((configSector rowCount).drop 8).take 4 = uleBytes4 (rowCount * ROW_SIZE) := by
  cases hp : packGroups groups [] with
  | none => rw [generate_rom, hp] at h; cases h
  | some data =>
      refine ⟨data, by rw [generate_rom, hp], ?_, ?_, ?_⟩
      · rw [configSector]
        simp only [List.append_assoc]
        exact take4_append _ _ rfl
      · rw [configSector]
        simp only [List.append_assoc]
        rw [drop4_append ([0x19, 0x17, 0x13, 0x11] : List Nat) _ rfl]
        exact take4_append _ _ rfl
      · rw [configSector]
        simp only [List.append_assoc]
        rw [show (8 : Nat) = 4 + 4 from rfl, ← List.drop_drop,
          drop4_append ([0x19, 0x17, 0x13, 0x11] : List Nat) _ rfl,
          drop4_append (uleBytes4 rowCount) _ rfl]
        exact take4_append _ _ rfl

/-- C3 (counterexample): a run whose only puzzle passes the filter, is
emitted, and is then rolled back by the trailing-piece rule leaves zero
accepted move records on the sink, yet ends with `page_count = 1`; the
header's page-count field for that run encodes 1, not the count (0) of
records accepted during emission, so the field is not the count of accepted
records. -/
theorem c3_header_fields_counterexample :
    mainLoop cfgRun [recordRollback] 0 0 0 0 [] = some ⟨1, 1, 0, []⟩ ∧
    ((configSector 1).drop 4).take 4 = [1, 0, 0, 0] ∧
    ((configSector 1).drop 4).take 4 ≠ uleBytes4 0 :=
  ⟨by decide, by decide, by decide⟩

/-- Witness for C3's amended statement at row count 5 on an empty group
list. -/
theorem c3_header_fields_witness :
    ∃ data,
      generate_rom 5 [] =
        some ((data ++ List.replicate (MAX_ROM_DATA_SIZE - data.length) 0) ++
          configSector 5) ∧
      (configSector 5).take 4 = [0x19, 0x17, 0x13, 0x11] ∧
      ((configSector 5).drop 4).take 4 = uleBytes4 5 ∧
      ((configSector 5).drop 8).take 4 = uleBytes4 (5 * ROW_SIZE) :=
  c3_header_fields 5 [] (by decide)

end ChessRom
